import Mathlib

/-!
Verification of the jetton-deployer core (on-chain metadata codec, message
builder, deployment parameter assembler, connection store) against its
natural-language specification.

The TypeScript source is shallowly embedded: cells are binary trees of bit
lists with child references, the `ton` library's cell builder/slice methods
are modelled bit-for-bit, JavaScript strings/Buffers become Lean `String`s
and byte lists, thrown `Error`s become an explicit error type, and machine
integers become `Nat`/`Int`.
-/

set_option maxHeartbeats 1600000
set_option maxRecDepth 100000

/-! ### Bit-level primitives

A cell stores a sequence of bits.  `uintBits v w` is the big-endian `w`-bit
encoding of `v` (mod `2 ^ w`), matching the builder `storeUint`; `bitsToNat`
is the corresponding big-endian reader. -/

def bitsToNat (bs : List Bool) : Nat :=
  bs.foldl (fun a b => 2 * a + (if b then 1 else 0)) 0

def uintBits : Nat → Nat → List Bool
  | _, 0 => []
  | v, w + 1 => uintBits (v / 2) w ++ [decide (v % 2 = 1)]

theorem length_uintBits (v w : Nat) : (uintBits v w).length = w := by
  induction w generalizing v with
  | zero => rfl
  | succ w ih => simp [uintBits, ih]

theorem bitsToNat_snoc (l : List Bool) (b : Bool) :
    bitsToNat (l ++ [b]) = 2 * bitsToNat l + (if b then 1 else 0) := by
  simp [bitsToNat, List.foldl_append]

theorem if_mod_two (n : Nat) :
    ((if decide (n % 2 = 1) = true then 1 else 0) : Nat) = n % 2 := by
  rcases Nat.mod_two_eq_zero_or_one n with h | h <;> simp [h]

theorem bitsToNat_uintBits (v w : Nat) : bitsToNat (uintBits v w) = v % 2 ^ w := by
  induction w generalizing v with
  | zero => simp [uintBits, bitsToNat, Nat.mod_one]
  | succ w ih =>
      simp only [uintBits, bitsToNat_snoc, ih, if_mod_two]
      have h2 : v % 2 ^ (w + 1) = v % 2 + 2 * (v / 2 % 2 ^ w) := by
        rw [pow_succ, mul_comm (2 ^ w) 2, Nat.mod_mul]
      omega

/-- Reading `w` bits from the front of a slice, as the library `readUint`
(which throws on underflow, modelled by `none`). -/
def readUintBits (w : Nat) (bs : List Bool) : Option (Nat × List Bool) :=
  if w ≤ bs.length then some (bitsToNat (bs.take w), bs.drop w) else none

theorem readUintBits_append (v w : Nat) (rest : List Bool) :
    readUintBits w (uintBits v w ++ rest) = some (v % 2 ^ w, rest) := by
  have hl : (uintBits v w).length = w := length_uintBits v w
  have ht : (uintBits v w ++ rest).take w = uintBits v w := List.take_left' hl
  have hd : (uintBits v w ++ rest).drop w = rest := List.drop_left' hl
  simp [readUintBits, ht, hd, bitsToNat_uintBits, hl]

/-! ### Bytes as bits

`byteBits` is the 8-bit big-endian encoding of one byte, used by the builder
`storeBuffer`; `bitsToBytes` regroups a byte-aligned bit sequence into bytes,
as the slice `readRemainingBytes` (underflow / misalignment gives `none`). -/

def bit1 (n : Nat) : Bool := decide (n % 2 = 1)

def byteBits (b : Nat) : List Bool :=
  [bit1 (b / 128), bit1 (b / 64), bit1 (b / 32), bit1 (b / 16),
   bit1 (b / 8), bit1 (b / 4), bit1 (b / 2), bit1 b]

def bytesBits : List Nat → List Bool
  | [] => []
  | b :: rest => byteBits b ++ bytesBits rest

def bitsToBytes : List Bool → Option (List Nat)
  | [] => some []
  | b0 :: b1 :: b2 :: b3 :: b4 :: b5 :: b6 :: b7 :: rest =>
      (bitsToBytes rest).map
        (fun t => bitsToNat [b0, b1, b2, b3, b4, b5, b6, b7] :: t)
  | _ => none

theorem byteBits_eq_uintBits (b : Nat) : byteBits b = uintBits b 8 := by
  simp [byteBits, uintBits, bit1, Nat.div_div_eq_div_mul]

theorem bitsToNat_byteBits (b : Nat) :
    bitsToNat (byteBits b) = b % 256 := by
  rw [byteBits_eq_uintBits, bitsToNat_uintBits]
  norm_num

theorem bitsToBytes_byteBits_append (b : Nat) (l : List Bool) :
    bitsToBytes (byteBits b ++ l) = (bitsToBytes l).map (fun t => b % 256 :: t) := by
  have h : byteBits b ++ l
      = bit1 (b / 128) :: bit1 (b / 64) :: bit1 (b / 32) :: bit1 (b / 16) ::
        bit1 (b / 8) :: bit1 (b / 4) :: bit1 (b / 2) :: bit1 b :: l := by
    simp [byteBits]
  rw [h]
  simp only [bitsToBytes]
  rw [show [bit1 (b / 128), bit1 (b / 64), bit1 (b / 32), bit1 (b / 16),
      bit1 (b / 8), bit1 (b / 4), bit1 (b / 2), bit1 b] = byteBits b from rfl,
    bitsToNat_byteBits]

theorem bitsToBytes_bytesBits (bs : List Nat) (h : ∀ b ∈ bs, b < 256) :
    bitsToBytes (bytesBits bs) = some bs := by
  induction bs with
  | nil => rfl
  | cons b rest ih =>
      have hb : b < 256 := h b (by simp)
      have hrest : ∀ x ∈ rest, x < 256 := fun x hx => h x (by simp [hx])
      simp only [bytesBits]
      rw [bitsToBytes_byteBits_append, ih hrest]
      simp [Nat.mod_eq_of_lt hb]

theorem length_bytesBits (bs : List Nat) : (bytesBits bs).length = 8 * bs.length := by
  induction bs with
  | nil => rfl
  | cons b rest ih =>
      have h8 : (byteBits b).length = 8 := rfl
      simp only [bytesBits, List.length_append, h8, ih, List.length_cons]
      ring

/-! ### Text encodings -/

def utf8EncodeChar (c : Char) : List Nat :=
  if c.toNat < 128 then [c.toNat]
  else if c.toNat < 2048 then [192 + c.toNat / 64, 128 + c.toNat % 64]
  else if c.toNat < 65536 then
    [224 + c.toNat / 4096, 128 + c.toNat / 64 % 64, 128 + c.toNat % 64]
  else
    [240 + c.toNat / 262144, 128 + c.toNat / 4096 % 64, 128 + c.toNat / 64 % 64,
     128 + c.toNat % 64]

def utf8Encode (cs : List Char) : List Nat := cs.flatMap utf8EncodeChar

/-- A UTF-8 continuation byte. -/
def contByte (b : Nat) : Bool := decide (128 ≤ b) && decide (b < 192)

/-- The replacement character emitted by the JS decoder on invalid input. -/
def replChar : Char := Char.ofNat 65533

mutual

/-- Byte-level UTF-8 decoding, as `Buffer.prototype.toString("utf8")`.
On valid encodings — the only inputs any claim exercises — it inverts
`utf8Encode`; on invalid input it emits replacement characters (the exact
resynchronisation point after a bad sequence is not load-bearing here), and
like the JS decoder it returns a nonempty string on nonempty input. -/
def utf8Decode : List Nat → List Char
  | [] => []
  | b0 :: rest =>
    if b0 < 128 then Char.ofNat b0 :: utf8Decode rest
    else if b0 < 192 then replChar :: utf8Decode rest
    else if b0 < 224 then utf8Dec2 b0 rest
    else if b0 < 240 then utf8Dec3 b0 rest
    else utf8Dec4 b0 rest

def utf8Dec2 (b0 : Nat) : List Nat → List Char
  | [] => [replChar]
  | b1 :: rest1 =>
      (if contByte b1 then Char.ofNat ((b0 - 192) * 64 + (b1 - 128)) else replChar) ::
        utf8Decode rest1

def utf8Dec3 (b0 : Nat) : List Nat → List Char
  | [] => [replChar]
  | [_] => [replChar]
  | b1 :: b2 :: rest2 =>
      (if contByte b1 && contByte b2 then
        Char.ofNat ((b0 - 224) * 4096 + (b1 - 128) * 64 + (b2 - 128))
      else replChar) :: utf8Decode rest2

def utf8Dec4 (b0 : Nat) : List Nat → List Char
  | [] => [replChar]
  | [_] => [replChar]
  | [_, _] => [replChar]
  | b1 :: b2 :: b3 :: rest3 =>
      (if contByte b1 && contByte b2 && contByte b3 then
        Char.ofNat ((b0 - 240) * 262144 + (b1 - 128) * 4096 + (b2 - 128) * 64 + (b3 - 128))
      else replChar) :: utf8Decode rest3

end

theorem char_valid_nat (c : Char) :
    c.toNat < 55296 ∨ 57343 < c.toNat ∧ c.toNat < 1114112 := c.valid

theorem utf8Decode_encodeChar (c : Char) (l : List Nat) :
    utf8Decode (utf8EncodeChar c ++ l) = c :: utf8Decode l := by
  have hv := char_valid_nat c
  by_cases h1 : c.toNat < 128
  · have henc : utf8EncodeChar c = [c.toNat] := by simp [utf8EncodeChar, h1]
    rw [henc, List.cons_append, List.nil_append, utf8Decode, if_pos h1, Char.ofNat_toNat]
  · by_cases h2 : c.toNat < 2048
    · have henc : utf8EncodeChar c = [192 + c.toNat / 64, 128 + c.toNat % 64] := by
        simp [utf8EncodeChar, h1, h2]
      rw [henc]
      have e1 : ¬ 192 + c.toNat / 64 < 128 := by omega
      have e2 : ¬ 192 + c.toNat / 64 < 192 := by omega
      have e3 : 192 + c.toNat / 64 < 224 := by omega
      have e4 : contByte (128 + c.toNat % 64) = true := by
        simp only [contByte, Bool.and_eq_true, decide_eq_true_eq]
        omega
      simp only [List.cons_append, List.nil_append]
      rw [utf8Decode, if_neg e1, if_neg e2, if_pos e3, utf8Dec2, e4, if_pos rfl]
      have hval : (192 + c.toNat / 64 - 192) * 64 + (128 + c.toNat % 64 - 128) = c.toNat := by
        omega
      rw [hval, Char.ofNat_toNat]
    · by_cases h3 : c.toNat < 65536
      · have henc : utf8EncodeChar c
            = [224 + c.toNat / 4096, 128 + c.toNat / 64 % 64, 128 + c.toNat % 64] := by
          simp [utf8EncodeChar, h1, h2, h3]
        rw [henc]
        have e1 : ¬ 224 + c.toNat / 4096 < 128 := by omega
        have e2 : ¬ 224 + c.toNat / 4096 < 192 := by omega
        have e3 : ¬ 224 + c.toNat / 4096 < 224 := by omega
        have e4 : 224 + c.toNat / 4096 < 240 := by omega
        have e5 : (contByte (128 + c.toNat / 64 % 64) && contByte (128 + c.toNat % 64))
            = true := by
          simp only [contByte, Bool.and_eq_true, decide_eq_true_eq]
          omega
        simp only [List.cons_append, List.nil_append]
        rw [utf8Decode, if_neg e1, if_neg e2, if_neg e3, if_pos e4, utf8Dec3, e5, if_pos rfl]
        have hval : (224 + c.toNat / 4096 - 224) * 4096 + (128 + c.toNat / 64 % 64 - 128) * 64 +
            (128 + c.toNat % 64 - 128) = c.toNat := by
          omega
        rw [hval, Char.ofNat_toNat]
      · have henc : utf8EncodeChar c
            = [240 + c.toNat / 262144, 128 + c.toNat / 4096 % 64, 128 + c.toNat / 64 % 64,
               128 + c.toNat % 64] := by
          simp [utf8EncodeChar, h1, h2, h3]
        rw [henc]
        have e1 : ¬ 240 + c.toNat / 262144 < 128 := by omega
        have e2 : ¬ 240 + c.toNat / 262144 < 192 := by omega
        have e3 : ¬ 240 + c.toNat / 262144 < 224 := by omega
        have e4 : ¬ 240 + c.toNat / 262144 < 240 := by omega
        have e5 : (contByte (128 + c.toNat / 4096 % 64) && contByte (128 + c.toNat / 64 % 64) &&
            contByte (128 + c.toNat % 64)) = true := by
          simp only [contByte, Bool.and_eq_true, decide_eq_true_eq]
          omega
        simp only [List.cons_append, List.nil_append]
        rw [utf8Decode, if_neg e1, if_neg e2, if_neg e3, if_neg e4, utf8Dec4, e5, if_pos rfl]
        have hval : (240 + c.toNat / 262144 - 240) * 262144 +
            (128 + c.toNat / 4096 % 64 - 128) * 4096 +
            (128 + c.toNat / 64 % 64 - 128) * 64 + (128 + c.toNat % 64 - 128) = c.toNat := by
          omega
        rw [hval, Char.ofNat_toNat]

theorem utf8Decode_encode (cs : List Char) : utf8Decode (utf8Encode cs) = cs := by
  induction cs with
  | nil => rfl
  | cons c rest ih =>
      show utf8Decode (utf8EncodeChar c ++ utf8Encode rest) = c :: rest
      rw [utf8Decode_encodeChar, ih]

theorem utf8EncodeChar_lt (c : Char) : ∀ b ∈ utf8EncodeChar c, b < 256 := by
  intro b hb
  have hv := char_valid_nat c
  simp only [utf8EncodeChar] at hb
  split_ifs at hb with h1 h2 h3
  · simp only [List.mem_singleton] at hb
    omega
  · simp only [List.mem_cons, List.not_mem_nil, or_false] at hb
    rcases hb with rfl | rfl <;> omega
  · simp only [List.mem_cons, List.not_mem_nil, or_false] at hb
    rcases hb with rfl | rfl | rfl <;> omega
  · simp only [List.mem_cons, List.not_mem_nil, or_false] at hb
    rcases hb with rfl | rfl | rfl | rfl <;> omega

theorem utf8Encode_lt (cs : List Char) : ∀ b ∈ utf8Encode cs, b < 256 := by
  intro b hb
  simp only [utf8Encode, List.mem_flatMap] at hb
  obtain ⟨c, _, hc⟩ := hb
  exact utf8EncodeChar_lt c b hc

/-! ASCII mode: Node's `"ascii"` encoding keeps the low 8 bits of each UTF-16
code unit (modelled on scalar values) and its decoding masks each byte to
7 bits. -/

def asciiEncode (cs : List Char) : List Nat := cs.map (fun c => c.toNat % 256)

def asciiDecode (bs : List Nat) : List Char := bs.map (fun b => Char.ofNat (b % 128))

theorem asciiDecode_encode (cs : List Char) (h : ∀ c ∈ cs, c.toNat < 128) :
    asciiDecode (asciiEncode cs) = cs := by
  induction cs with
  | nil => rfl
  | cons c rest ih =>
      have hc : c.toNat < 128 := h c (by simp)
      have hrest : ∀ x ∈ rest, x.toNat < 128 := fun x hx => h x (by simp [hx])
      simp only [asciiEncode, asciiDecode, List.map_cons] at *
      rw [ih hrest]
      have : c.toNat % 256 % 128 = c.toNat := by omega
      rw [this, Char.ofNat_toNat]

/-! ### Metadata value encodings -/

inductive EncMode where
  | utf8
  | ascii
deriving DecidableEq

def encodeStr : EncMode → String → List Nat
  | .utf8, s => utf8Encode s.data
  | .ascii, s => asciiEncode s.data

def decodeBytes : EncMode → List Nat → String
  | .utf8, bs => ⟨utf8Decode bs⟩
  | .ascii, bs => ⟨asciiDecode bs⟩

theorem encodeStr_lt (mode : EncMode) (s : String) : ∀ b ∈ encodeStr mode s, b < 256 := by
  intro b hb
  cases mode with
  | utf8 => exact utf8Encode_lt s.data b hb
  | ascii =>
      simp only [encodeStr, asciiEncode, List.mem_map] at hb
      obtain ⟨c, _, rfl⟩ := hb
      omega

/-! ### SHA-256

The metadata dictionary keys are SHA-256 digests of the key names
(`@aws-crypto/sha256-js` in the source).  Implemented over `Nat` with
explicit `% 2 ^ 32` reductions.  The digest is read as one 256-bit natural
number: the source turns the digest buffer into a `BN` — via hex on one side
and the dict builder's internal conversion on the other, both yielding the
same big-endian number, which is what the dictionary keys actually are. -/

def add32 (a b : Nat) : Nat := (a + b) % 4294967296

def rotr32 (n x : Nat) : Nat := x / 2 ^ n + x % 2 ^ n * 2 ^ (32 - n)

def shr32 (n x : Nat) : Nat := x / 2 ^ n

def ssig0 (x : Nat) : Nat := Nat.xor (Nat.xor (rotr32 7 x) (rotr32 18 x)) (shr32 3 x)

def ssig1 (x : Nat) : Nat := Nat.xor (Nat.xor (rotr32 17 x) (rotr32 19 x)) (shr32 10 x)

def bsig0 (x : Nat) : Nat := Nat.xor (Nat.xor (rotr32 2 x) (rotr32 13 x)) (rotr32 22 x)

def bsig1 (x : Nat) : Nat := Nat.xor (Nat.xor (rotr32 6 x) (rotr32 11 x)) (rotr32 25 x)

def chFn (e f g : Nat) : Nat := Nat.xor (Nat.land e f) (Nat.land (Nat.xor e 4294967295) g)

def majFn (a b c : Nat) : Nat :=
  Nat.xor (Nat.xor (Nat.land a b) (Nat.land a c)) (Nat.land b c)

structure Hash8 where
  a : Nat
  b : Nat
  c : Nat
  d : Nat
  e : Nat
  f : Nat
  g : Nat
  h : Nat

def shaInit : Hash8 :=
  ⟨1779033703, 3144134277, 1013904242, 2773480762, 1359893119, 2600822924, 528734635, 1541459225⟩

def shaK : List Nat :=
  [1116352408, 1899447441, 3049323471, 3921009573, 961987163, 1508970993, 2453635748, 2870763221,
   3624381080, 310598401, 607225278, 1426881987, 1925078388, 2162078206, 2614888103, 3248222580,
   3835390401, 4022224774, 264347078, 604807628, 770255983, 1249150122, 1555081692, 1996064986,
   2554220882, 2821834349, 2952996808, 3210313671, 3336571891, 3584528711, 113926993, 338241895,
   666307205, 773529912, 1294757372, 1396182291, 1695183700, 1986661051, 2177026350, 2456956037,
   2730485921, 2820302411, 3259730800, 3345764771, 3516065817, 3600352804, 4094571909, 275423344,
   430227734, 506948616, 659060556, 883997877, 958139571, 1322822218, 1537002063, 1747873779,
   1955562222, 2024104815, 2227730452, 2361852424, 2428436474, 2756734187, 3204031479, 3329325298]

def bytesToWords : List Nat → List Nat
  | a :: b :: c :: d :: rest =>
      ((((a % 256) * 256 + b % 256) * 256 + c % 256) * 256 + d % 256) :: bytesToWords rest
  | _ => []

def scheduleExt : List Nat → Nat → List Nat
  | ws, 0 => ws
  | ws, k + 1 =>
      scheduleExt (ws ++ [add32 (add32 (ssig1 (ws.getD (ws.length - 2) 0))
        (ws.getD (ws.length - 7) 0))
        (add32 (ssig0 (ws.getD (ws.length - 15) 0)) (ws.getD (ws.length - 16) 0))]) k

def shaRound (st : Hash8) (kw : Nat × Nat) : Hash8 :=
  let t1 := add32 (add32 (add32 (add32 st.h (bsig1 st.e)) (chFn st.e st.f st.g)) kw.1) kw.2
  let t2 := add32 (bsig0 st.a) (majFn st.a st.b st.c)
  ⟨add32 t1 t2, st.a, st.b, st.c, add32 st.d t1, st.e, st.f, st.g⟩

def compressBlock (H : Hash8) (block : List Nat) : Hash8 :=
  let st := (shaK.zip (scheduleExt (bytesToWords block) 48)).foldl shaRound H
  ⟨add32 H.a st.a, add32 H.b st.b, add32 H.c st.c, add32 H.d st.d,
   add32 H.e st.e, add32 H.f st.f, add32 H.g st.g, add32 H.h st.h⟩

def padBytes (msg : List Nat) : List Nat :=
  msg ++ 128 :: List.replicate ((64 - (msg.length + 9) % 64) % 64) 0 ++
    [msg.length * 8 / 72057594037927936 % 256, msg.length * 8 / 281474976710656 % 256,
     msg.length * 8 / 1099511627776 % 256, msg.length * 8 / 4294967296 % 256,
     msg.length * 8 / 16777216 % 256, msg.length * 8 / 65536 % 256,
     msg.length * 8 / 256 % 256, msg.length * 8 % 256]

def chunks64 : Nat → List Nat → List (List Nat)
  | 0, _ => []
  | _, [] => []
  | fuel + 1, l => l.take 64 :: chunks64 fuel (l.drop 64)

def sha256Hash (msg : List Nat) : Hash8 :=
  (chunks64 (padBytes msg).length (padBytes msg)).foldl compressBlock shaInit

def hashWords (H : Hash8) : List Nat := [H.a, H.b, H.c, H.d, H.e, H.f, H.g, H.h]

def wordsToNat (ws : List Nat) : Nat :=
  ws.foldl (fun acc w => acc * 4294967296 + w % 4294967296) 0

/-- `sha256(k)` read as a 256-bit natural number (big-endian). -/
def sha256Nat (s : String) : Nat := wordsToNat (hashWords (sha256Hash (utf8Encode s.data)))

theorem foldl_words_lt (ws : List Nat) :
    ∀ acc B : Nat, acc < B →
      ws.foldl (fun a w => a * 4294967296 + w % 4294967296) acc < B * 4294967296 ^ ws.length := by
  induction ws with
  | nil =>
      intro acc B h
      simpa using h
  | cons w rest ih =>
      intro acc B h
      have step : acc * 4294967296 + w % 4294967296 < B * 4294967296 := by
        have hw : w % 4294967296 < 4294967296 := Nat.mod_lt _ (by norm_num)
        have : acc + 1 ≤ B := h
        nlinarith
      have := ih (acc * 4294967296 + w % 4294967296) (B * 4294967296) step
      simpa [List.foldl_cons, pow_succ, mul_assoc, mul_comm, mul_left_comm] using this

theorem sha256Nat_lt (s : String) : sha256Nat s < 2 ^ 256 := by
  have h := foldl_words_lt (hashWords (sha256Hash (utf8Encode s.data))) 0 1 (by norm_num)
  have e : (4294967296 : Nat) ^ (hashWords (sha256Hash (utf8Encode s.data))).length
      = 2 ^ 256 := by
    norm_num [hashWords]
  rw [e, one_mul] at h
  exact h

/-! ### Cells and the builder

A TON cell: a bit string plus ordered references to child cells.  `Builder`
mirrors the `ton` library's `beginCell()` chain used by the source. -/

inductive Cell where
  | mk (bits : List Bool) (refs : List Cell)

def Cell.bits : Cell → List Bool
  | .mk b _ => b

def Cell.refs : Cell → List Cell
  | .mk _ r => r

/-- Thrown `Error`s of the embedded code, by throw site, with the spec's
error taxonomy alongside:
* `unsupportedKey` — "Unsupported onchain key: …" (`UnsupportedKeyError`);
* `expectedOnchainMarker` — "Expected onchain content marker"
  (`MalformedContentError`);
* `onlySnakeFormat` — "Only snake format is supported"
  (`MalformedContentError`);
* `cellUnderflow` — errors thrown inside the `ton` library's slice and dict
  readers on truncated or misaligned cells;
* `invalidAddress` — `Address.parse` failure (`InvalidAddressError`);
* `bitStringOverflow` — "BitString overflow": the library's bit writer
  throws when a store would exceed the 1023-bit cell capacity;
* `numberOverflow` — "bitLength is too small for …": `writeUint` throws
  when the value does not fit the requested bit width (in particular
  `writeCoins` for amounts of 16 or more bytes, i.e. ≥ 2^120, whose byte
  length does not fit the 4-bit size field);
* `refsOverflow` — a cell holds at most 4 references. -/
inductive JsError where
  | unsupportedKey (k : String)
  | expectedOnchainMarker
  | onlySnakeFormat
  | cellUnderflow
  | invalidAddress
  | bitStringOverflow
  | numberOverflow
  | refsOverflow
deriving DecidableEq

structure Builder where
  bits : List Bool
  refs : List Cell

def beginCell : Builder := ⟨[], []⟩

/-- The library's `BitString` append: a cell holds at most 1023 bits, and
writing past that throws `BitString overflow`. -/
def Builder.storeBits (b : Builder) (bs : List Bool) : Except JsError Builder :=
  if b.bits.length + bs.length ≤ 1023 then .ok ⟨b.bits ++ bs, b.refs⟩
  else .error .bitStringOverflow

/-- `storeUint(v, w)` (`writeUint`): rejects values that do not fit `w`
bits, then appends the big-endian bits, capacity-checked. -/
def Builder.storeUint (b : Builder) (v w : Nat) : Except JsError Builder :=
  if v < 2 ^ w then b.storeBits (uintBits v w) else .error .numberOverflow

def Builder.storeUint8 (b : Builder) (v : Nat) : Except JsError Builder := b.storeUint v 8

/-- `storeInt` (two's complement, range-checked); the source only stores
the value 0. -/
def Builder.storeInt (b : Builder) (v : Int) (w : Nat) : Except JsError Builder :=
  if -(2 ^ (w - 1) : Int) ≤ v ∧ v < 2 ^ (w - 1) then
    b.storeBits (uintBits (v.emod (2 ^ w)).toNat w)
  else .error .numberOverflow

def Builder.storeBuffer (b : Builder) (bytes : List Nat) : Except JsError Builder :=
  b.storeBits (bytesBits bytes)

def Builder.storeBit (b : Builder) (x : Bool) : Except JsError Builder := b.storeBits [x]

def Builder.storeRef (b : Builder) (c : Cell) : Except JsError Builder :=
  if b.refs.length < 4 then .ok ⟨b.bits, b.refs ++ [c]⟩ else .error .refsOverflow

/-- Minimal big-endian byte length of a natural number (structural fuel so
that it evaluates in the kernel; the fuel argument is an upper bound). -/
def byteLenAux : Nat → Nat → Nat
  | 0, _ => 0
  | fuel + 1, n => if n = 0 then 0 else byteLenAux fuel (n / 256) + 1

def byteLen (n : Nat) : Nat := byteLenAux n n

/-- The successful bit-level layout of `storeCoins`: a VarUInteger — 4-bit
byte length, then that many bytes. -/
def coinsBits (n : Nat) : List Bool := uintBits (byteLen n) 4 ++ uintBits n (8 * byteLen n)

/-- `storeCoins` (`writeCoins`): the byte length through `writeUint(len, 4)`
— which throws for amounts of 16 or more bytes (≥ 2^120) — then the amount
through `writeUint(n, len * 8)`. -/
def Builder.storeCoins (b : Builder) (n : Nat) : Except JsError Builder := do
  let b ← b.storeUint (byteLen n) 4
  b.storeUint n (8 * byteLen n)

/-- A parsed chain address: workchain id plus a 256-bit account hash. -/
structure Address where
  workChain : Int
  hash : Nat
deriving DecidableEq

/-- `storeAddress`: `addr_none$00` for `null`, otherwise `addr_std$10`,
no-anycast bit, 8-bit workchain, 256-bit hash. -/
def addrBits : Option Address → List Bool
  | none => [false, false]
  | some a => [true, false, false] ++ uintBits (a.workChain.emod 256).toNat 8 ++
      uintBits a.hash 256

def Builder.storeAddress (b : Builder) (a : Option Address) : Except JsError Builder :=
  b.storeBits (addrBits a)

def Builder.endCell (b : Builder) : Cell := .mk b.bits b.refs

/-! ### Support lemmas: the builder's success and failure conditions -/

theorem except_pure_bind {ε α β : Type} (a : α) (f : α → Except ε β) :
    ((Except.ok a : Except ε α) >>= f) = f a := rfl

theorem except_error_bind {ε α β : Type} (e : ε) (f : α → Except ε β) :
    ((Except.error e : Except ε α) >>= f) = Except.error e := rfl

theorem except_pure {ε α : Type} (a : α) : (pure a : Except ε α) = .ok a := rfl

theorem byteLenAux_spec : ∀ fuel n : Nat, n ≤ fuel → n < 2 ^ (8 * byteLenAux fuel n) := by
  intro fuel
  induction fuel with
  | zero =>
      intro n h
      have h0 : n = 0 := by omega
      subst h0
      decide
  | succ fuel ih =>
      intro n h
      by_cases h0 : n = 0
      · subst h0
        simp [byteLenAux]

      · have hrec : byteLenAux (fuel + 1) n = byteLenAux fuel (n / 256) + 1 := by
          simp [byteLenAux, h0]
        rw [hrec]
        have hle : n / 256 ≤ fuel := by omega
        have hq := ih (n / 256) hle
        have hpow : 2 ^ (8 * (byteLenAux fuel (n / 256) + 1))
            = 2 ^ (8 * byteLenAux fuel (n / 256)) * 256 := by
          rw [Nat.mul_add, pow_add]
          norm_num
        rw [hpow]
        omega

theorem byteLen_spec (n : Nat) : n < 2 ^ (8 * byteLen n) := byteLenAux_spec n n le_rfl

theorem byteLenAux_le : ∀ fuel n k : Nat, n ≤ fuel → n < 2 ^ (8 * k) →
    byteLenAux fuel n ≤ k := by
  intro fuel
  induction fuel with
  | zero =>
      intro n k h _
      have h0 : n = 0 := by omega
      subst h0
      simp [byteLenAux]
  | succ fuel ih =>
      intro n k h hk
      by_cases h0 : n = 0
      · subst h0
        simp [byteLenAux]
      · have hrec : byteLenAux (fuel + 1) n = byteLenAux fuel (n / 256) + 1 := by
          simp [byteLenAux, h0]
        rw [hrec]
        have hkpos : k ≠ 0 := by
          intro hk0
          subst hk0
          simp only [Nat.mul_zero, pow_zero] at hk
          omega
        have hdiv : n / 256 < 2 ^ (8 * (k - 1)) := by
          have hpow : 2 ^ (8 * k) = 2 ^ (8 * (k - 1)) * 256 := by
            have h8 : 8 * k = 8 * (k - 1) + 8 := by omega
            rw [h8, pow_add]
            norm_num
          rw [hpow] at hk
          omega
        have := ih (n / 256) (k - 1) (by omega) hdiv
        omega

theorem byteLen_le (n k : Nat) (h : n < 2 ^ (8 * k)) : byteLen n ≤ k :=
  byteLenAux_le n n k le_rfl h

theorem length_coinsBits (n : Nat) : (coinsBits n).length = 4 + 8 * byteLen n := by
  simp [coinsBits, length_uintBits]

theorem length_addrBits_some (a : Address) : (addrBits (some a)).length = 267 := by
  simp [addrBits, length_uintBits]

theorem storeBits_ok (b : Builder) (bs : List Bool)
    (h : b.bits.length + bs.length ≤ 1023) :
    b.storeBits bs = .ok ⟨b.bits ++ bs, b.refs⟩ := by
  unfold Builder.storeBits
  rw [if_pos h]

theorem storeUint_ok (b : Builder) (v w : Nat) (hv : v < 2 ^ w)
    (h : b.bits.length + w ≤ 1023) :
    b.storeUint v w = .ok ⟨b.bits ++ uintBits v w, b.refs⟩ := by
  unfold Builder.storeUint
  rw [if_pos hv]
  exact storeBits_ok b _ (by rw [length_uintBits]; exact h)

theorem storeInt_ok (b : Builder) (v : Int) (w : Nat)
    (hr : -(2 ^ (w - 1) : Int) ≤ v ∧ v < 2 ^ (w - 1))
    (h : b.bits.length + w ≤ 1023) :
    b.storeInt v w = .ok ⟨b.bits ++ uintBits (v.emod (2 ^ w)).toNat w, b.refs⟩ := by
  unfold Builder.storeInt
  rw [if_pos hr]
  exact storeBits_ok b _ (by rw [length_uintBits]; exact h)

theorem storeBuffer_ok (b : Builder) (bytes : List Nat)
    (h : b.bits.length + 8 * bytes.length ≤ 1023) :
    b.storeBuffer bytes = .ok ⟨b.bits ++ bytesBits bytes, b.refs⟩ := by
  unfold Builder.storeBuffer
  exact storeBits_ok b _ (by rw [length_bytesBits]; exact h)

theorem storeBit_ok (b : Builder) (x : Bool) (h : b.bits.length + 1 ≤ 1023) :
    b.storeBit x = .ok ⟨b.bits ++ [x], b.refs⟩ :=
  storeBits_ok b [x] h

theorem storeRef_ok (b : Builder) (c : Cell) (h : b.refs.length < 4) :
    b.storeRef c = .ok ⟨b.bits, b.refs ++ [c]⟩ := by
  unfold Builder.storeRef
  rw [if_pos h]

theorem storeCoins_ok (b : Builder) (n : Nat) (hn : byteLen n < 16)
    (h : b.bits.length + (4 + 8 * byteLen n) ≤ 1023) :
    b.storeCoins n = .ok ⟨b.bits ++ coinsBits n, b.refs⟩ := by
  have h1 := storeUint_ok b (byteLen n) 4 (by omega) (by omega)
  have h2 := storeUint_ok ⟨b.bits ++ uintBits (byteLen n) 4, b.refs⟩ n (8 * byteLen n)
      (byteLen_spec n)
      (by
        show (b.bits ++ uintBits (byteLen n) 4).length + 8 * byteLen n ≤ 1023
        rw [List.length_append, length_uintBits]
        omega)
  calc b.storeCoins n
      = (b.storeUint (byteLen n) 4) >>= (fun b' => b'.storeUint n (8 * byteLen n)) := rfl
    _ = Builder.storeUint ⟨b.bits ++ uintBits (byteLen n) 4, b.refs⟩ n (8 * byteLen n) := by
        rw [h1]; rfl
    _ = .ok ⟨b.bits ++ uintBits (byteLen n) 4 ++ uintBits n (8 * byteLen n), b.refs⟩ := h2
    _ = .ok ⟨b.bits ++ coinsBits n, b.refs⟩ := by rw [List.append_assoc]; rfl

theorem storeAddressNone_ok (b : Builder) (h : b.bits.length + 2 ≤ 1023) :
    b.storeAddress none = .ok ⟨b.bits ++ [false, false], b.refs⟩ := by
  unfold Builder.storeAddress
  exact storeBits_ok b _ h

theorem storeAddress_ok (b : Builder) (a : Address) (h : b.bits.length + 267 ≤ 1023) :
    b.storeAddress (some a) = .ok ⟨b.bits ++ addrBits (some a), b.refs⟩ := by
  unfold Builder.storeAddress
  exact storeBits_ok b _ (by rw [length_addrBits_some]; exact h)

/-! ### The metadata dictionary

`beginDict(256)` builds a canonical mapping from 256-bit keys to value
cells; the library serialises it in key order (a binary trie), so the wire
form is a canonical function of the key→value mapping, independent of
insertion order.  We keep the mapping as a key-sorted association list and
serialise it by an explicit injective cell encoding (keys in the root's
bits, values as references); the claims depend only on canonicity and on
`readDict` inverting the serialisation, which the library format satisfies. -/

abbrev Dict := List (Nat × Cell)

def dictInsert (k : Nat) (v : Cell) : Dict → Dict
  | [] => [(k, v)]
  | e :: rest =>
      if k < e.1 then (k, v) :: e :: rest
      else if k = e.1 then (k, v) :: rest
      else e :: dictInsert k v rest

/-- `dict.get(key)`. -/
def dictLookup (k : Nat) : Dict → Option Cell
  | [] => none
  | e :: rest => if e.1 = k then some e.2 else dictLookup k rest

/-- Serialise the dictionary (nonempty case): entry keys as 256-bit groups in
the root bits, entry values as the references, in the same order. -/
def dictToCell (d : Dict) : Cell :=
  .mk (d.flatMap (fun e => uintBits e.1 256)) (d.map (fun e => e.2))

def unpackEntries : List Bool → List Cell → Option (List (Nat × Cell))
  | bs, [] => if bs.isEmpty then some [] else none
  | bs, v :: vs =>
      if 256 ≤ bs.length then
        (unpackEntries (bs.drop 256) vs).map (fun d => (bitsToNat (bs.take 256), v) :: d)
      else none

/-- Deserialise a dictionary cell (the library's dict parser). -/
def cellToDict (c : Cell) : Option Dict :=
  match c with
  | .mk bits refs => unpackEntries bits refs

theorem cellToDict_dictToCell (d : Dict) (h : ∀ e ∈ d, e.1 < 2 ^ 256) :
    cellToDict (dictToCell d) = some d := by
  show unpackEntries (d.flatMap fun e => uintBits e.1 256) (d.map fun e => e.2) = some d
  induction d with
  | nil => rfl
  | cons e rest ih =>
      have he : e.1 < 2 ^ 256 := h e (by simp)
      have hrest : ∀ x ∈ rest, x.1 < 2 ^ 256 := fun x hx => h x (by simp [hx])
      have hfm : (e :: rest).flatMap (fun x => uintBits x.1 256)
          = uintBits e.1 256 ++ rest.flatMap (fun x => uintBits x.1 256) := by
        simp [List.flatMap_cons]
      rw [hfm, List.map_cons]
      simp only [unpackEntries]
      have hlen : 256 ≤ (uintBits e.1 256
          ++ rest.flatMap fun x => uintBits x.1 256).length := by
        simp [length_uintBits]
      rw [if_pos hlen]
      rw [List.take_left' (length_uintBits e.1 256), List.drop_left' (length_uintBits e.1 256)]
      rw [ih hrest, bitsToNat_uintBits, Nat.mod_eq_of_lt he]
      simp

theorem dictLookup_insert_self (k : Nat) (v : Cell) (d : Dict) :
    dictLookup k (dictInsert k v d) = some v := by
  induction d with
  | nil => simp [dictInsert, dictLookup]
  | cons e rest ih =>
      simp only [dictInsert]
      split_ifs with h1 h2
      · simp [dictLookup]
      · simp [dictLookup]
      · have hne : ¬ e.1 = k := by omega
        simp [dictLookup, hne, ih]

theorem dictLookup_insert_ne (k k' : Nat) (v : Cell) (d : Dict) (h : k' ≠ k) :
    dictLookup k' (dictInsert k v d) = dictLookup k' d := by
  induction d with
  | nil =>
      have hk : ¬ k = k' := fun hh => h hh.symm
      simp [dictInsert, dictLookup, hk]
  | cons e rest ih =>
      simp only [dictInsert]
      split_ifs with h1 h2
      · have hk : ¬ k = k' := fun hh => h hh.symm
        simp [dictLookup, hk]
      · have hk : ¬ k = k' := fun hh => h hh.symm
        have he : ¬ e.1 = k' := by omega
        simp [dictLookup, hk, he]
      · simp [dictLookup, ih]

theorem dictInsert_comm (k₁ k₂ : Nat) (v₁ v₂ : Cell) (d : Dict) (h : k₁ ≠ k₂) :
    dictInsert k₁ v₁ (dictInsert k₂ v₂ d) = dictInsert k₂ v₂ (dictInsert k₁ v₁ d) := by
  induction d with
  | nil =>
      simp only [dictInsert]
      split_ifs <;> first | rfl | omega
  | cons e rest ih =>
      simp only [dictInsert]
      split_ifs <;>
        first
          | rfl
          | omega
          | rw [ih]
          | (simp only [dictInsert]; split_ifs <;> first | rfl | omega | rw [ih])

/-! ### The jetton metadata codec

Embedding of `buildOnChainData` / `parseOnChainData` and their callers from
the source (the non-UI half of `AdaptersList.tsx`). -/

/-- `ONCHAIN_CONTENT_` tag constant (`0x00`). -/
def onchainContentTag : Nat := 0

/-- `SNAKE_` tag constant (`0x00`). -/
def snakeFormatTag : Nat := 0

/-- `jettonOnChainMetadataSpec`: the object literal's own four properties —
the recognized keys and their encodings. -/
def jettonOnChainMetadataSpec (k : String) : Option EncMode :=
  if k = "name" then some .utf8
  else if k = "description" then some .utf8
  else if k = "image" then some .ascii
  else if k = "symbol" then some .utf8
  else none

/-- Property names a plain object literal inherits from `Object.prototype`:
the runtime access `jettonOnChainMetadataSpec[k]` walks the prototype
chain, so for these names it yields a (truthy) function or object rather
than `undefined`. -/
def objectProtoProps : List String :=
  ["constructor", "hasOwnProperty", "isPrototypeOf", "propertyIsEnumerable",
   "toLocaleString", "toString", "valueOf", "__defineGetter__",
   "__defineSetter__", "__lookupGetter__", "__lookupSetter__", "__proto__"]

/-- The possible results of the runtime property access `spec[k]`. -/
inductive SpecAccess where
  | mode (m : EncMode)
  | inherited
  | absent
deriving DecidableEq

/-- The runtime property access `jettonOnChainMetadataSpec[k]`, prototype
chain included: an own property gives the key's encoding mode; an inherited
`Object.prototype` member is truthy but is not an encoding; any other key
gives `undefined` (falsy). -/
def specAccess (k : String) : SpecAccess :=
  match jettonOnChainMetadataSpec k with
  | some m => .mode m
  | none => if k ∈ objectProtoProps then .inherited else .absent

/-- The encoding actually used for a key's stored value: an own property's
declared mode; for an inherited prototype member, `Buffer.from(v, enc)`
receives a non-string `enc` and the `buffer` package falls back to utf8;
an absent key encodes nothing (the unsupported-key throw fires first). -/
def entryEncoding (k : String) : Option EncMode :=
  match specAccess k with
  | .mode m => some m
  | .inherited => some .utf8
  | .absent => none

/-- Decidable form of "the entry's value cell fits the 1023-bit cell
capacity": the 8-bit snake tag plus 8 bits per encoded byte stay within
1023 bits, i.e. at most 126 encoded bytes. -/
def valFits (p : String × Option String) : Bool :=
  match p.2, entryEncoding p.1 with
  | some v, some mode => decide (8 + 8 * (encodeStr mode v).length ≤ 1023)
  | _, _ => true

/-- `dict.endDict()`: `null` when empty, otherwise the serialised dict cell. -/
def dictEnd (d : Dict) : Option Cell := if d.isEmpty then none else some (dictToCell d)

/-- `storeDict`: a maybe-bit, plus a reference to the dict cell when present. -/
def Builder.storeDict (b : Builder) (oc : Option Cell) : Except JsError Builder :=
  match oc with
  | none => b.storeBit false
  | some c => do
      let b ← b.storeBit true
      b.storeRef c

/-- The successful layout of the per-key value cell: snake tag byte, then
the encoded value bytes. -/
def metaValueCell (mode : EncMode) (v : String) : Cell :=
  Cell.mk (uintBits snakeFormatTag 8 ++ bytesBits (encodeStr mode v)) []

/-- The per-key value-cell builder chain
(`beginCell().storeUint8(SNAKE_…).storeBuffer(Buffer.from(v, enc)).endCell()`);
it throws `BitString overflow` when the encoded value exceeds the cell
capacity — the failure the source's own TODO comment notes for oversized
values. -/
def buildValueCell (mode : EncMode) (v : String) : Except JsError Cell := do
  let b ← beginCell.storeUint8 snakeFormatTag
  let b ← b.storeBuffer (encodeStr mode v)
  pure b.endCell

/-- One step of the `Object.entries(data).forEach` loop in `buildOnChainData`:
the `!jettonOnChainMetadataSpec[k]` check throws only when the
prototype-chain access is `undefined`; `undefined` values are skipped;
otherwise the value cell is stored under the key's SHA-256 digest.  For a
key found on `Object.prototype` the access yields a truthy non-string
"encoding" and `Buffer.from` falls back to utf8. -/
def buildStep (d : Dict) (p : String × Option String) : Except JsError Dict :=
  match specAccess p.1 with
  | .absent => .error (.unsupportedKey p.1)
  | .mode mode =>
      match p.2 with
      | none => .ok d
      | some v => (buildValueCell mode v).map (fun c => dictInsert (sha256Nat p.1) c d)
  | .inherited =>
      match p.2 with
      | none => .ok d
      | some v => (buildValueCell .utf8 v).map (fun c => dictInsert (sha256Nat p.1) c d)

/-- The successful layout of the root cell built at the end of
`buildOnChainData` (that chain's own stores always fit: 9 bits and at most
one reference). -/
def contentRoot (d : Dict) : Cell :=
  match dictEnd d with
  | none => Cell.mk (uintBits 0 8 ++ [false]) []
  | some c => Cell.mk (uintBits 0 8 ++ [true]) [c]

/-- `buildOnChainData(data)`
(`beginCell().storeInt(ONCHAIN_…, 8).storeDict(dict.endDict()).endCell()`
after the forEach loop).  The input object is embedded as its entry list in
insertion order. -/
def buildOnChainData (data : List (String × Option String)) : Except JsError Cell := do
  let d ← data.foldlM buildStep []
  let b ← beginCell.storeInt (onchainContentTag : Int) 8
  let b ← b.storeDict (dictEnd d)
  pure b.endCell

/-- The dict value extractor passed to `readDict` in `parseOnChainData`:
check the snake tag byte, return the remaining bytes. -/
def extractSnake (v : Cell) : Except JsError (List Nat) :=
  match readUintBits 8 v.bits with
  | none => .error .cellUnderflow
  | some (t, rest) =>
      if t = snakeFormatTag then
        match bitsToBytes rest with
        | none => .error .cellUnderflow
        | some bs => .ok bs
      else .error .onlySnakeFormat

/-- The extractor applied to every dictionary entry (as the library's dict
parser does while deserialising), first failure propagating. -/
def extractEntries : Dict → Except JsError (List (Nat × List Nat))
  | [] => .ok []
  | e :: rest =>
      match extractSnake e.2 with
      | .error err => .error err
      | .ok bs =>
          match extractEntries rest with
          | .error err => .error err
          | .ok tail => .ok ((e.1, bs) :: tail)

def entriesLookup (k : Nat) : List (Nat × List Nat) → Option (List Nat)
  | [] => none
  | e :: rest => if e.1 = k then some e.2 else entriesLookup k rest

/-- `readDict` on the content slice: maybe-bit, then the dict root
reference. -/
def readDictCell (bits : List Bool) (refs : List Cell) : Except JsError Dict :=
  match bits with
  | [] => .error .cellUnderflow
  | false :: _ => .ok []
  | true :: _ =>
      match refs with
      | [] => .error .cellUnderflow
      | r :: _ =>
          match cellToDict r with
          | none => .error .cellUnderflow
          | some d => .ok d

/-- Per-key read-back: look the key's digest up among the extracted entries,
decode with the key's mode, and drop falsy (empty) strings — `if (val)`. -/
def parseEntryVal (es : List (Nat × List Nat)) (k : String) (mode : EncMode) :
    Option String :=
  match entriesLookup (sha256Nat k) es with
  | none => none
  | some bs => if decodeBytes mode bs = "" then none else some (decodeBytes mode bs)

/-- The result object of `parseOnChainData` (optional fields for the four
recognized keys). -/
structure JettonMetadata where
  name : Option String
  description : Option String
  image : Option String
  symbol : Option String
deriving DecidableEq

/-- The result object assembled by the `Object.keys(spec).forEach` loop at
the end of `parseOnChainData`. -/
def parseResult (es : List (Nat × List Nat)) : JettonMetadata :=
  ⟨parseEntryVal es "name" .utf8, parseEntryVal es "description" .utf8,
   parseEntryVal es "image" .ascii, parseEntryVal es "symbol" .utf8⟩

/-- `parseOnChainData(contentCell)`. -/
def parseOnChainData (c : Cell) : Except JsError JettonMetadata :=
  match readUintBits 8 c.bits with
  | none => .error .cellUnderflow
  | some (t, rest) =>
      if t = onchainContentTag then
        (readDictCell rest c.refs).bind fun d => (extractEntries d).map parseResult
      else .error .expectedOnchainMarker

/-- Modelled from the spec: `JETTON_WALLET_CODE` is a fixed contract code
template loaded once from a static build asset (`jetton-wallet-bitcode.json`,
not under `src/`); no claim depends on its contents, so it is an arbitrary
fixed cell here. -/
def JETTON_WALLET_CODE : Cell := .mk [true] []

/-- `initData(owner, data)`: zero total balance, owner address, content cell
reference, wallet code reference.  (JS evaluates the receiver chain before
the `storeRef` argument, so the coins and address stores run before
`buildOnChainData`.) -/
def initData (owner : Address) (data : List (String × Option String)) :
    Except JsError Cell := do
  let b ← beginCell.storeCoins 0
  let b ← b.storeAddress (some owner)
  let content ← buildOnChainData data
  let b ← b.storeRef content
  let b ← b.storeRef JETTON_WALLET_CODE
  pure b.endCell

/-- `enum OPS`. -/
def OPS.Mint : Nat := 21

def OPS.InternalTransfer : Nat := 0x178d4519

/-- `mintBody(owner, jettonValue)`; `jettonValue` is a non-negative `BN`,
embedded as `Nat`; `toNano(0.2)` (the gas fee) is 200000000 nano.  JS
evaluates the outer receiver chain before the `storeRef` argument, so the
outer stores run first, then the nested InternalTransfer chain (whose
`storeCoins` throws for `jettonValue ≥ 2^120`), then the reference store. -/
def mintBody (owner : Address) (jettonValue : Nat) : Except JsError Cell := do
  let b ← beginCell.storeUint OPS.Mint 32
  let b ← b.storeUint 0 64
  let b ← b.storeAddress (some owner)
  let b ← b.storeCoins 200000000
  let ib ← beginCell.storeUint OPS.InternalTransfer 32
  let ib ← ib.storeUint 0 64
  let ib ← ib.storeCoins jettonValue
  let ib ← ib.storeAddress none
  let ib ← ib.storeAddress none
  let ib ← ib.storeCoins 0
  let ib ← ib.storeBit false
  let b ← b.storeRef ib.endCell
  pure b.endCell

def base64CharVal (c : Char) : Option Nat :=
  if 65 ≤ c.toNat ∧ c.toNat ≤ 90 then some (c.toNat - 65)
  else if 97 ≤ c.toNat ∧ c.toNat ≤ 122 then some (c.toNat - 97 + 26)
  else if 48 ≤ c.toNat ∧ c.toNat ≤ 57 then some (c.toNat - 48 + 52)
  else if c.toNat = 43 ∨ c.toNat = 45 then some 62
  else if c.toNat = 47 ∨ c.toNat = 95 then some 63
  else none

def sextetsToNat (l : List Nat) : Nat := l.foldl (fun a s => a * 64 + s % 64) 0

/-- Modelled from the spec: `Address.parse` (chain library code, not under
`src/`) accepts "an owner address string in the chain's human-readable
address format" — a "valid 48-char address" — and yields the workchain and
256-bit account hash.  The 48 base64 characters are 36 bytes: tag byte,
signed workchain byte, 32 hash bytes, 2 checksum bytes; the checksum is not
re-verified here, as the spec does not describe it. -/
def parseAddress (s : String) : Option Address :=
  if s.data.length = 48 then
    match s.data.mapM base64CharVal with
    | none => none
    | some sx =>
        let n : Nat := sextetsToNat sx
        let wcByte : Nat := n / 2 ^ 272 % 256
        some ⟨if wcByte < 128 then (wcByte : Int) else (wcByte : Int) - 256,
              n / 2 ^ 16 % 2 ^ 256⟩
  else none

/-- The address-then-assemble composition from `deployContract`
(`screens/deployer/index.tsx`): `Address.parse(address)` feeding `initData`;
a malformed address string fails before any cell is built. -/
def deployInitData (addressStr : String) (data : List (String × Option String)) :
    Except JsError Cell :=
  match parseAddress addressStr with
  | none => .error .invalidAddress
  | some owner => initData owner data

/-! ### The connection store (`store/connection-store/index.ts`) -/

/-- `ConnectionStateAtom`; the wallet and adapter-id types are parameters
(the wallet-library `Wallet` type and TypeScript `any`). -/
structure ConnectionStateAtom (W A : Type) where
  address : Option String
  wallet : Option W
  adapterId : A
  isConnecting : Bool
  isRestoring : Bool

/-- The value written through the selector (only its `address` and `wallet`
fields are read by the setter). -/
structure ConnectNewValue (W : Type) where
  address : Option String
  wallet : Option W

/-- The `set` function of `connectWalletSelector`: spread the previous state,
overwrite `address` and `wallet`. -/
def connectWalletSelectorSet {W A : Type} (state : ConnectionStateAtom W A)
    (newValue : ConnectNewValue W) : ConnectionStateAtom W A :=
  { state with address := newValue.address, wallet := newValue.wallet }

/-! ### Views used by the claim statements -/

/-- Key lookup in an input metadata mapping: the order-independent mapping
view of the entry list. -/
def mapLookup : List (String × Option String) → String → Option String
  | [], _ => none
  | p :: rest, k => if p.1 = k then p.2 else mapLookup rest k

/-- Field of the parse result corresponding to a recognized key name. -/
def metaGet (r : JettonMetadata) (k : String) : Option String :=
  if k = "name" then r.name
  else if k = "description" then r.description
  else if k = "image" then r.image
  else if k = "symbol" then r.symbol
  else none

/-! ### Support lemmas: recognized keys and their digests -/

theorem spec_isSome_iff (k : String) :
    (jettonOnChainMetadataSpec k).isSome
      ↔ k = "name" ∨ k = "description" ∨ k = "image" ∨ k = "symbol" := by
  unfold jettonOnChainMetadataSpec
  split_ifs <;> simp_all

theorem sha_inj_rec {k₁ k₂ : String} (h₁ : (jettonOnChainMetadataSpec k₁).isSome)
    (h₂ : (jettonOnChainMetadataSpec k₂).isSome) (hne : k₁ ≠ k₂) :
    sha256Nat k₁ ≠ sha256Nat k₂ := by
  rcases (spec_isSome_iff k₁).mp h₁ with rfl | rfl | rfl | rfl <;>
    rcases (spec_isSome_iff k₂).mp h₂ with rfl | rfl | rfl | rfl <;>
      first | (exact absurd rfl hne) | decide

/-! ### Support lemmas: the encode loop -/

/-- The pure effect of one loop step when the key is recognized. -/
def buildStepPure (d : Dict) (p : String × Option String) : Dict :=
  match jettonOnChainMetadataSpec p.1 with
  | none => d
  | some mode =>
      match p.2 with
      | none => d
      | some v => dictInsert (sha256Nat p.1) (metaValueCell mode v) d

theorem specAccess_of_some (k : String) (mode : EncMode)
    (h : jettonOnChainMetadataSpec k = some mode) : specAccess k = .mode mode := by
  unfold specAccess
  rw [h]

theorem beginCell_storeTag : beginCell.storeUint8 snakeFormatTag = .ok ⟨uintBits 0 8, []⟩ := by
  show Builder.storeUint ⟨[], []⟩ 0 8 = _
  rw [storeUint_ok ⟨[], []⟩ 0 8 (by norm_num) (by decide)]
  rfl

theorem buildValueCell_ok (mode : EncMode) (v : String)
    (h : 8 + 8 * (encodeStr mode v).length ≤ 1023) :
    buildValueCell mode v = .ok (metaValueCell mode v) := by
  have h2 : Builder.storeBuffer ⟨uintBits 0 8, []⟩ (encodeStr mode v)
      = .ok ⟨uintBits 0 8 ++ bytesBits (encodeStr mode v), []⟩ := by
    apply storeBuffer_ok
    show (uintBits 0 8).length + 8 * (encodeStr mode v).length ≤ 1023
    rw [length_uintBits]
    omega
  calc buildValueCell mode v
      = (beginCell.storeUint8 snakeFormatTag) >>= (fun b =>
          (b.storeBuffer (encodeStr mode v)) >>= (fun b => pure b.endCell)) := rfl
    _ = (Builder.storeBuffer ⟨uintBits 0 8, []⟩ (encodeStr mode v))
          >>= (fun b => pure b.endCell) := by
        rw [beginCell_storeTag]; rfl
    _ = pure (Builder.endCell ⟨uintBits 0 8 ++ bytesBits (encodeStr mode v), []⟩) := by
        rw [h2]; rfl
    _ = .ok (metaValueCell mode v) := rfl

theorem buildValueCell_overflow (mode : EncMode) (v : String)
    (h : ¬ 8 + 8 * (encodeStr mode v).length ≤ 1023) :
    buildValueCell mode v = .error .bitStringOverflow := by
  have hn : ¬ (Builder.mk (uintBits 0 8) []).bits.length
      + (bytesBits (encodeStr mode v)).length ≤ 1023 := by
    show ¬ (uintBits 0 8).length + (bytesBits (encodeStr mode v)).length ≤ 1023
    rw [length_uintBits, length_bytesBits]
    omega
  have h2 : Builder.storeBuffer ⟨uintBits 0 8, []⟩ (encodeStr mode v)
      = .error .bitStringOverflow := by
    unfold Builder.storeBuffer Builder.storeBits
    rw [if_neg hn]
  calc buildValueCell mode v
      = (beginCell.storeUint8 snakeFormatTag) >>= (fun b =>
          (b.storeBuffer (encodeStr mode v)) >>= (fun b => pure b.endCell)) := rfl
    _ = (Builder.storeBuffer ⟨uintBits 0 8, []⟩ (encodeStr mode v))
          >>= (fun b => pure b.endCell) := by
        rw [beginCell_storeTag]; rfl
    _ = .error .bitStringOverflow := by rw [h2]; rfl

theorem buildStep_ok_of_fits (d : Dict) (p : String × Option String)
    (hp : (jettonOnChainMetadataSpec p.1).isSome) (hfit : valFits p = true) :
    buildStep d p = .ok (buildStepPure d p) := by
  obtain ⟨mode, hmode⟩ := Option.isSome_iff_exists.mp hp
  have hacc : specAccess p.1 = .mode mode := specAccess_of_some p.1 mode hmode
  unfold buildStep buildStepPure
  rw [hacc, hmode]
  cases hp2 : p.2 with
  | none => rfl
  | some v =>
      have henc : entryEncoding p.1 = some mode := by
        unfold entryEncoding
        rw [hacc]
      have hfit2 : 8 + 8 * (encodeStr mode v).length ≤ 1023 := by
        unfold valFits at hfit
        rw [hp2, henc] at hfit
        exact of_decide_eq_true hfit
      show (buildValueCell mode v).map (fun c => dictInsert (sha256Nat p.1) c d)
          = Except.ok (dictInsert (sha256Nat p.1) (metaValueCell mode v) d)
      rw [buildValueCell_ok mode v hfit2]
      rfl

theorem foldlM_buildStep_ok (m : List (String × Option String)) :
    ∀ d : Dict, (∀ p ∈ m, (jettonOnChainMetadataSpec p.1).isSome) →
      (∀ p ∈ m, valFits p = true) →
      m.foldlM buildStep d = .ok (m.foldl buildStepPure d) := by
  induction m with
  | nil => intro d _ _; rfl
  | cons p rest ih =>
      intro d h hf
      have hstep : buildStep d p = .ok (buildStepPure d p) :=
        buildStep_ok_of_fits d p (h p (by simp)) (hf p (by simp))
      calc (p :: rest).foldlM buildStep d
          = buildStep d p >>= (fun d' => rest.foldlM buildStep d') := by rfl
        _ = rest.foldlM buildStep (buildStepPure d p) := by rw [hstep]; rfl
        _ = .ok (rest.foldl buildStepPure (buildStepPure d p)) :=
            ih _ (fun q hq => h q (by simp [hq])) (fun q hq => hf q (by simp [hq]))
        _ = .ok ((p :: rest).foldl buildStepPure d) := by rw [List.foldl_cons]

theorem buildOnChainData_eq_fold (m : List (String × Option String)) :
    buildOnChainData m = (m.foldlM buildStep []) >>= (fun d =>
      (beginCell.storeInt (onchainContentTag : Int) 8) >>= (fun b =>
        (b.storeDict (dictEnd d)) >>= (fun b => pure b.endCell))) := rfl

theorem rootChain_ok (d : Dict) :
    ((beginCell.storeInt (onchainContentTag : Int) 8) >>= (fun b =>
      (b.storeDict (dictEnd d)) >>= (fun b => pure b.endCell)) : Except JsError Cell)
      = .ok (contentRoot d) := by
  have h1 : beginCell.storeInt (onchainContentTag : Int) 8 = .ok ⟨uintBits 0 8, []⟩ := by
    show Builder.storeInt ⟨[], []⟩ 0 8 = _
    rw [storeInt_ok ⟨[], []⟩ 0 8 (by decide) (by decide)]
    rfl
  rw [h1]
  show (Builder.storeDict ⟨uintBits 0 8, []⟩ (dictEnd d)) >>= (fun b => pure b.endCell)
      = .ok (contentRoot d)
  cases hd : dictEnd d with
  | none =>
      rw [show Builder.storeDict ⟨uintBits 0 8, []⟩ none
          = .ok ⟨uintBits 0 8 ++ [false], []⟩ from storeBit_ok _ false (by decide)]
      show Except.ok (Builder.endCell ⟨uintBits 0 8 ++ [false], []⟩) = .ok (contentRoot d)
      unfold contentRoot
      rw [hd]
      rfl
  | some c =>
      have h2 : Builder.storeDict ⟨uintBits 0 8, []⟩ (some c)
          = .ok ⟨uintBits 0 8 ++ [true], [c]⟩ := by
        show (Builder.storeBit ⟨uintBits 0 8, []⟩ true) >>= (fun b => b.storeRef c) = _
        rw [storeBit_ok _ true (by decide)]
        show Builder.storeRef ⟨uintBits 0 8 ++ [true], []⟩ c = _
        rw [storeRef_ok _ c (by decide)]
        rfl
      rw [h2]
      show Except.ok (Builder.endCell ⟨uintBits 0 8 ++ [true], [c]⟩) = .ok (contentRoot d)
      unfold contentRoot
      rw [hd]
      rfl

theorem buildOnChainData_ok (m : List (String × Option String))
    (h : ∀ p ∈ m, (jettonOnChainMetadataSpec p.1).isSome)
    (hfit : ∀ p ∈ m, valFits p = true) :
    buildOnChainData m = .ok (contentRoot (m.foldl buildStepPure [])) := by
  rw [buildOnChainData_eq_fold, foldlM_buildStep_ok m [] h hfit]
  exact rootChain_ok _

theorem contentRoot_nil : contentRoot [] = Cell.mk (uintBits 0 8 ++ [false]) [] := rfl

theorem contentRoot_cons (d : Dict) (hne : d ≠ []) :
    contentRoot d = Cell.mk (uintBits 0 8 ++ [true]) [dictToCell d] := by
  have hempty : ¬ d.isEmpty = true := by
    cases d with
    | nil => exact absurd rfl hne
    | cons e rest => simp [List.isEmpty]
  simp only [contentRoot, dictEnd, if_neg hempty]

/-! ### Support lemmas: dictionary lookups after the encode loop -/

theorem dictLookup_foldl_untouched (m : List (String × Option String)) (κ : Nat)
    (h : ∀ p ∈ m, ∀ v, p.2 = some v → sha256Nat p.1 ≠ κ) :
    ∀ d : Dict, dictLookup κ (m.foldl buildStepPure d) = dictLookup κ d := by
  induction m with
  | nil => intro d; rfl
  | cons p rest ih =>
      intro d
      have hrest : ∀ q ∈ rest, ∀ v, q.2 = some v → sha256Nat q.1 ≠ κ :=
        fun q hq => h q (by simp [hq])
      rw [List.foldl_cons, ih hrest]
      unfold buildStepPure
      cases hmode : jettonOnChainMetadataSpec p.1 with
      | none => rfl
      | some mode =>
          cases hp2 : p.2 with
          | none => rfl
          | some v =>
              exact dictLookup_insert_ne _ _ _ _
                (fun hh => h p (by simp) v hp2 hh.symm)

theorem dictLookup_foldl_found (m : List (String × Option String)) (k : String)
    (v : String) (mode : EncMode)
    (hrec : ∀ p ∈ m, (jettonOnChainMetadataSpec p.1).isSome)
    (hpair : m.Pairwise (fun a b => a.1 ≠ b.1))
    (hmem : (k, some v) ∈ m) (hmode : jettonOnChainMetadataSpec k = some mode) :
    ∀ d : Dict, dictLookup (sha256Nat k) (m.foldl buildStepPure d)
      = some (metaValueCell mode v) := by
  induction m with
  | nil => exact absurd hmem (List.not_mem_nil _)
  | cons p rest ih =>
      intro d
      rcases List.mem_cons.mp hmem with heq | hmem'
      · subst heq
        rw [List.foldl_cons]
        have hstep : buildStepPure d (k, some v)
            = dictInsert (sha256Nat k) (metaValueCell mode v) d := by
          unfold buildStepPure
          rw [hmode]
        rw [hstep]
        have huntouched : ∀ q ∈ rest, ∀ v', q.2 = some v' → sha256Nat q.1 ≠ sha256Nat k := by
          intro q hq v' _
          have hqk : k ≠ q.1 := (List.pairwise_cons.mp hpair).1 q hq
          exact sha_inj_rec (hrec q (by simp [hq])) (by rw [hmode]; rfl) (fun hh => hqk hh.symm)
        rw [dictLookup_foldl_untouched rest (sha256Nat k) huntouched]
        exact dictLookup_insert_self _ _ _
      · rw [List.foldl_cons]
        exact ih (fun q hq => hrec q (by simp [hq])) (List.pairwise_cons.mp hpair).2 hmem' _

theorem mapLookup_of_mem (m : List (String × Option String))
    (hpair : m.Pairwise (fun a b => a.1 ≠ b.1)) (p : String × Option String)
    (hmem : p ∈ m) : mapLookup m p.1 = p.2 := by
  induction m with
  | nil => exact absurd hmem (List.not_mem_nil _)
  | cons q rest ih =>
      rcases List.mem_cons.mp hmem with heq | hmem'
      · subst heq
        simp [mapLookup]
      · have hq : q.1 ≠ p.1 := (List.pairwise_cons.mp hpair).1 p hmem'
        simp only [mapLookup, if_neg hq]
        exact ih (List.pairwise_cons.mp hpair).2 hmem'

theorem mem_of_mapLookup (m : List (String × Option String)) (k : String)
    (v : String) (h : mapLookup m k = some v) : (k, some v) ∈ m := by
  induction m with
  | nil => simp [mapLookup] at h
  | cons p rest ih =>
      by_cases hp : p.1 = k
      · simp only [mapLookup, if_pos hp] at h
        have : p = (k, some v) := Prod.ext hp h
        simp [this]
      · simp only [mapLookup, if_neg hp] at h
        simp [ih h]

theorem dictLookup_foldl_none (m : List (String × Option String)) (k : String)
    (hrec : ∀ p ∈ m, (jettonOnChainMetadataSpec p.1).isSome)
    (hpair : m.Pairwise (fun a b => a.1 ≠ b.1))
    (hk : (jettonOnChainMetadataSpec k).isSome)
    (hnone : mapLookup m k = none) :
    dictLookup (sha256Nat k) (m.foldl buildStepPure []) = none := by
  rw [dictLookup_foldl_untouched m (sha256Nat k) ?h []]
  · rfl
  case h =>
    intro p hp v hpv
    by_cases hpk : p.1 = k
    · exfalso
      have := mapLookup_of_mem m hpair p hp
      rw [hpk, hpv] at this
      rw [this] at hnone
      exact Option.noConfusion hnone
    · exact sha_inj_rec (hrec p hp) hk hpk

/-! ### Support lemmas: the decode side -/

theorem extractSnake_metaValueCell (mode : EncMode) (v : String) :
    extractSnake (metaValueCell mode v) = .ok (encodeStr mode v) := by
  have hbits : (metaValueCell mode v).bits = uintBits 0 8 ++ bytesBits (encodeStr mode v) := rfl
  unfold extractSnake
  rw [hbits, readUintBits_append]
  norm_num [snakeFormatTag]
  rw [bitsToBytes_bytesBits _ (encodeStr_lt mode v)]

theorem extractEntries_spec (d : Dict)
    (h : ∀ e ∈ d, ∃ bs, extractSnake e.2 = .ok bs) :
    ∃ es, extractEntries d = .ok es ∧
      ∀ κ, entriesLookup κ es = (dictLookup κ d).bind (fun c => (extractSnake c).toOption) := by
  induction d with
  | nil => exact ⟨[], rfl, fun κ => rfl⟩
  | cons e rest ih =>
      obtain ⟨bs, hbs⟩ := h e (by simp)
      obtain ⟨es', hex', hlook⟩ := ih (fun x hx => h x (by simp [hx]))
      refine ⟨(e.1, bs) :: es', ?_, ?_⟩
      · unfold extractEntries
        rw [hbs, hex']
      · intro κ
        by_cases he : e.1 = κ
        · simp [entriesLookup, dictLookup, he, hbs, Except.toOption]
        · simp only [entriesLookup, dictLookup, if_neg he]
          exact hlook κ

theorem decode_encode_utf8 (s : String) : decodeBytes .utf8 (encodeStr .utf8 s) = s := by
  show String.mk (utf8Decode (utf8Encode s.data)) = s
  rw [utf8Decode_encode]

theorem decode_encode_ascii (s : String) (h : ∀ c ∈ s.data, c.toNat < 128) :
    decodeBytes .ascii (encodeStr .ascii s) = s := by
  show String.mk (asciiDecode (asciiEncode s.data)) = s
  rw [asciiDecode_encode s.data h]

theorem except_bind_ok {ε α β : Type} (a : α) (f : α → Except ε β) :
    (Except.ok a : Except ε α).bind f = f a := rfl

theorem parse_contentRoot_nil :
    parseOnChainData (contentRoot []) = .ok (parseResult []) := rfl

theorem parse_contentRoot_cons (d : Dict) (hne : d ≠ [])
    (hkeys : ∀ e ∈ d, e.1 < 2 ^ 256)
    (es : List (Nat × List Nat)) (hex : extractEntries d = .ok es) :
    parseOnChainData (contentRoot d) = .ok (parseResult es) := by
  rw [contentRoot_cons d hne]
  unfold parseOnChainData
  rw [show (Cell.mk (uintBits 0 8 ++ [true]) [dictToCell d]).bits
      = uintBits 0 8 ++ [true] from rfl, readUintBits_append]
  have h0 : (0 % 2 ^ 8 : Nat) = onchainContentTag := rfl
  have hdict : readDictCell [true] (Cell.mk (uintBits 0 8 ++ [true]) [dictToCell d]).refs
      = .ok d := by
    show (match cellToDict (dictToCell d) with
      | none => (Except.error JsError.cellUnderflow : Except JsError Dict)
      | some d' => Except.ok d') = .ok d
    rw [cellToDict_dictToCell d hkeys]
  simp only [h0, if_pos rfl, hdict, except_bind_ok, hex, Except.map_ok, if_true, Except.map]

theorem mem_dictInsert (e : Nat × Cell) (k : Nat) (v : Cell) (d : Dict)
    (h : e ∈ dictInsert k v d) : e = (k, v) ∨ e ∈ d := by
  induction d with
  | nil =>
      simp only [dictInsert, List.mem_singleton] at h
      exact Or.inl h
  | cons f rest ih =>
      simp only [dictInsert] at h
      split_ifs at h
      · rcases List.mem_cons.mp h with h1 | h1
        · exact Or.inl h1
        · exact Or.inr h1
      · rcases List.mem_cons.mp h with h1 | h1
        · exact Or.inl h1
        · exact Or.inr (List.mem_cons.mpr (Or.inr h1))
      · rcases List.mem_cons.mp h with h1 | h1
        · exact Or.inr (List.mem_cons.mpr (Or.inl h1))
        · rcases ih h1 with h2 | h2
          · exact Or.inl h2
          · exact Or.inr (List.mem_cons.mpr (Or.inr h2))

theorem foldl_buildStep_mem (m : List (String × Option String)) :
    ∀ d : Dict, ∀ e ∈ m.foldl buildStepPure d,
      e ∈ d ∨ ∃ k v mode, jettonOnChainMetadataSpec k = some mode
        ∧ e = (sha256Nat k, metaValueCell mode v) := by
  induction m with
  | nil => intro d e he; exact Or.inl he
  | cons p rest ih =>
      intro d e he
      rw [List.foldl_cons] at he
      rcases ih (buildStepPure d p) e he with h1 | h1
      · unfold buildStepPure at h1
        cases hmode : jettonOnChainMetadataSpec p.1 with
        | none => rw [hmode] at h1; exact Or.inl h1
        | some mode =>
            rw [hmode] at h1
            cases hp2 : p.2 with
            | none => rw [hp2] at h1; exact Or.inl h1
            | some v =>
                rw [hp2] at h1
                rcases mem_dictInsert e _ _ d h1 with h2 | h2
                · exact Or.inr ⟨p.1, v, mode, hmode, h2⟩
                · exact Or.inl h2
      · exact Or.inr h1

theorem parseEntryVal_eq (m : List (String × Option String)) (k : String) (mode : EncMode)
    (hrec : ∀ p ∈ m, (jettonOnChainMetadataSpec p.1).isSome)
    (hpair : m.Pairwise (fun a b => a.1 ≠ b.1))
    (hmode : jettonOnChainMetadataSpec k = some mode)
    (hne : ∀ p ∈ m, p.2 ≠ some "")
    (hdec : ∀ v : String, (k, some v) ∈ m → decodeBytes mode (encodeStr mode v) = v)
    (es : List (Nat × List Nat))
    (hlook : ∀ κ, entriesLookup κ es
      = (dictLookup κ (m.foldl buildStepPure [])).bind (fun c => (extractSnake c).toOption)) :
    parseEntryVal es k mode = mapLookup m k := by
  unfold parseEntryVal
  rw [hlook (sha256Nat k)]
  cases hml : mapLookup m k with
  | none =>
      rw [dictLookup_foldl_none m k hrec hpair (by rw [hmode]; rfl) hml]
      rfl
  | some v =>
      have hmem := mem_of_mapLookup m k v hml
      rw [dictLookup_foldl_found m k v mode hrec hpair hmem hmode []]
      have hsnake : (extractSnake (metaValueCell mode v)).toOption = some (encodeStr mode v) := by
        rw [extractSnake_metaValueCell]
        rfl
      show (match (extractSnake (metaValueCell mode v)).toOption with
        | none => none
        | some bs => if decodeBytes mode bs = "" then none else some (decodeBytes mode bs))
        = some v
      rw [hsnake]
      show (if decodeBytes mode (encodeStr mode v) = "" then none
        else some (decodeBytes mode (encodeStr mode v))) = some v
      rw [hdec v hmem]
      rw [if_neg (show ¬ v = "" from fun hv => hne (k, some v) hmem (by rw [hv]))]

/-! ### Claims -/

/-- Decidable form of "an ascii-mode value stays within 7-bit ASCII". -/
def asciiValOk (p : String × Option String) : Bool :=
  match p.2, jettonOnChainMetadataSpec p.1 with
  | some v, some .ascii => v.data.all (fun c => decide (c.toNat < 128))
  | _, _ => true

/-- C1 (amended).  For every valid metadata mapping `m` — keys a subset of
{name, description, image, symbol}, no duplicate keys, each present value a
string whose encoded bytes fit the value cell (8-bit snake tag plus 8 bits
per byte within the 1023-bit cell capacity, i.e. at most 126 encoded
bytes) — **whose present values are moreover nonempty, and whose ascii-mode
(image) values contain only characters below code point 128** — decoding
the encoding of `m` returns `m`: `buildOnChainData` succeeds,
`parseOnChainData` of its output succeeds, and the result agrees with `m`
on every recognized key (order-independent mapping equality). -/
theorem buildParse_roundTrip (m : List (String × Option String))
    (hrec : ∀ p ∈ m, (jettonOnChainMetadataSpec p.1).isSome)
    (hpair : m.Pairwise (fun a b => a.1 ≠ b.1))
    (hlen : ∀ p ∈ m, valFits p = true)
    (hnempty : ∀ p ∈ m, p.2 ≠ some "")
    (hascii : ∀ p ∈ m, asciiValOk p = true) :
    ∃ c r, buildOnChainData m = .ok c ∧ parseOnChainData c = .ok r ∧
      ∀ k, (jettonOnChainMetadataSpec k).isSome → metaGet r k = mapLookup m k := by
  have hok := buildOnChainData_ok m hrec hlen
  by_cases hD : m.foldl buildStepPure [] = []
  · refine ⟨contentRoot [], parseResult [], by rw [hok, hD], parse_contentRoot_nil, ?_⟩
    intro k hk
    obtain ⟨mode, hmode⟩ := Option.isSome_iff_exists.mp hk
    cases hml : mapLookup m k with
    | none =>
        rcases (spec_isSome_iff k).mp hk with rfl | rfl | rfl | rfl <;> rfl
    | some v =>
        exfalso
        have hmem := mem_of_mapLookup m k v hml
        have hfound := dictLookup_foldl_found m k v mode hrec hpair hmem hmode []
        rw [hD] at hfound
        exact Option.noConfusion hfound
  · have hmem_inv : ∀ e ∈ m.foldl buildStepPure [], ∃ k v mode,
        jettonOnChainMetadataSpec k = some mode ∧ e = (sha256Nat k, metaValueCell mode v) := by
      intro e he
      rcases foldl_buildStep_mem m [] e he with h1 | h1
      · exact absurd h1 (List.not_mem_nil e)
      · exact h1
    have hkeys : ∀ e ∈ m.foldl buildStepPure [], e.1 < 2 ^ 256 := by
      intro e he
      obtain ⟨k, v, mode, _, rfl⟩ := hmem_inv e he
      exact sha256Nat_lt k
    have hsnake : ∀ e ∈ m.foldl buildStepPure [], ∃ bs, extractSnake e.2 = .ok bs := by
      intro e he
      obtain ⟨k, v, mode, _, rfl⟩ := hmem_inv e he
      exact ⟨encodeStr mode v, extractSnake_metaValueCell mode v⟩
    obtain ⟨es, hex, hlook⟩ := extractEntries_spec _ hsnake
    refine ⟨contentRoot _, parseResult es, hok,
      parse_contentRoot_cons _ hD hkeys es hex, ?_⟩
    intro k hk
    rcases (spec_isSome_iff k).mp hk with rfl | rfl | rfl | rfl
    · show parseEntryVal es "name" .utf8 = mapLookup m "name"
      exact parseEntryVal_eq m "name" .utf8 hrec hpair rfl hnempty
        (fun v _ => decode_encode_utf8 v) es hlook
    · show parseEntryVal es "description" .utf8 = mapLookup m "description"
      exact parseEntryVal_eq m "description" .utf8 hrec hpair rfl hnempty
        (fun v _ => decode_encode_utf8 v) es hlook
    · show parseEntryVal es "image" .ascii = mapLookup m "image"
      refine parseEntryVal_eq m "image" .ascii hrec hpair rfl hnempty ?_ es hlook
      intro v hv
      apply decode_encode_ascii
      intro ch hch
      have hall : v.data.all (fun c => decide (c.toNat < 128)) = true :=
        hascii ("image", some v) hv
      exact of_decide_eq_true (List.all_eq_true.mp hall ch hch)
    · show parseEntryVal es "symbol" .utf8 = mapLookup m "symbol"
      exact parseEntryVal_eq m "symbol" .utf8 hrec hpair rfl hnempty
        (fun v _ => decode_encode_utf8 v) es hlook

/-- C1 counterexample to the claim as stated, on two valid mappings
(recognized keys, values within the length bound):
* `{name: ""}` encodes successfully, but decoding drops the entry — the
  decoder's `if (val)` check is falsy on the empty string — so
  `Decode(Encode(m))` maps `name` to nothing while `m` maps it to `""`;
* `{image: "é"}` comes back as `{image: "i"}` — the `image` value is
  encoded with Node's `"ascii"` mode (low 8 bits kept) but decoded with the
  high bit masked off, so é (0xE9) turns into i (0x69). -/
theorem buildParse_not_roundTrip :
    (buildOnChainData [("name", some "")]
        = .ok (contentRoot [(sha256Nat "name", metaValueCell .utf8 "")])
    ∧ parseOnChainData (contentRoot [(sha256Nat "name", metaValueCell .utf8 "")])
        = .ok ⟨none, none, none, none⟩
    ∧ mapLookup [("name", some "")] "name" = some ""
    ∧ (some "" : Option String) ≠ none)
    ∧ (buildOnChainData [("image", some "é")]
        = .ok (contentRoot [(sha256Nat "image", metaValueCell .ascii "é")])
    ∧ parseOnChainData (contentRoot [(sha256Nat "image", metaValueCell .ascii "é")])
        = .ok ⟨none, none, some "i", none⟩
    ∧ mapLookup [("image", some "é")] "image" = some "é"
    ∧ (some "i" : Option String) ≠ some "é") :=
  ⟨⟨rfl, rfl, rfl, by decide⟩, ⟨rfl, rfl, rfl, by decide⟩⟩

/-- C1 witness: the round-trip theorem applied to the concrete mapping
`{name: "Test", symbol: "TST"}`. -/
theorem buildParse_roundTrip_witness :
    ∃ c r, buildOnChainData [("name", some "Test"), ("symbol", some "TST")] = .ok c ∧
      parseOnChainData c = .ok r ∧
      ∀ k, (jettonOnChainMetadataSpec k).isSome
        → metaGet r k = mapLookup [("name", some "Test"), ("symbol", some "TST")] k :=
  buildParse_roundTrip [("name", some "Test"), ("symbol", some "TST")]
    (by decide) (by decide) (by decide) (by decide) (by decide)

theorem valFits_false_cases (p : String × Option String) (hfit : valFits p = false) :
    ∃ v mode, p.2 = some v ∧ entryEncoding p.1 = some mode
      ∧ ¬ 8 + 8 * (encodeStr mode v).length ≤ 1023 := by
  cases hp2 : p.2 with
  | none =>
      exfalso
      unfold valFits at hfit
      rw [hp2] at hfit
      cases hee : entryEncoding p.1 <;> rw [hee] at hfit <;> exact Bool.noConfusion hfit
  | some v =>
      cases hee : entryEncoding p.1 with
      | none =>
          exfalso
          unfold valFits at hfit
          rw [hp2, hee] at hfit
          exact Bool.noConfusion hfit
      | some mode =>
          unfold valFits at hfit
          rw [hp2, hee] at hfit
          exact ⟨v, mode, rfl, rfl, of_decide_eq_false hfit⟩

theorem buildStep_overflow (d : Dict) (p : String × Option String)
    (hfit : valFits p = false) :
    buildStep d p = .error .bitStringOverflow := by
  obtain ⟨v, mode, hp2, henc, hbig⟩ := valFits_false_cases p hfit
  unfold entryEncoding at henc
  unfold buildStep
  cases hacc : specAccess p.1 with
  | absent =>
      rw [hacc] at henc
      exact Option.noConfusion henc
  | mode m =>
      rw [hacc] at henc
      have hm : m = mode := Option.some.inj henc
      subst hm
      rw [hp2]
      show (buildValueCell m v).map (fun c => dictInsert (sha256Nat p.1) c d)
          = Except.error JsError.bitStringOverflow
      rw [buildValueCell_overflow m v hbig]
      rfl
  | inherited =>
      rw [hacc] at henc
      have hm : mode = EncMode.utf8 := (Option.some.inj henc).symm
      subst hm
      rw [hp2]
      show (buildValueCell .utf8 v).map (fun c => dictInsert (sha256Nat p.1) c d)
          = Except.error JsError.bitStringOverflow
      rw [buildValueCell_overflow .utf8 v hbig]
      rfl

theorem foldlM_buildStep_overflow (m : List (String × Option String)) :
    ∀ d : Dict, (∃ p ∈ m, valFits p = false) →
      (∀ p ∈ m, (jettonOnChainMetadataSpec p.1).isSome) →
      m.foldlM buildStep d = .error .bitStringOverflow := by
  induction m with
  | nil =>
      intro d hbad _
      obtain ⟨p, hp, _⟩ := hbad
      exact absurd hp (List.not_mem_nil _)
  | cons q rest ih =>
      intro d hbad hrec
      by_cases hq : valFits q = false
      · have hstep : buildStep d q = .error .bitStringOverflow := buildStep_overflow d q hq
        calc (q :: rest).foldlM buildStep d
            = buildStep d q >>= (fun d' => rest.foldlM buildStep d') := rfl
          _ = .error .bitStringOverflow := by rw [hstep]; rfl
      · have hqt : valFits q = true := by
          cases hv : valFits q with
          | false => exact absurd hv hq
          | true => rfl
        have hstep : buildStep d q = .ok (buildStepPure d q) :=
          buildStep_ok_of_fits d q (hrec q (by simp)) hqt
        have hbad' : ∃ p ∈ rest, valFits p = false := by
          obtain ⟨p, hp, hpf⟩ := hbad
          rcases List.mem_cons.mp hp with heq | hmem
          · exfalso
            rw [heq] at hpf
            exact hq hpf
          · exact ⟨p, hmem, hpf⟩
        calc (q :: rest).foldlM buildStep d
            = buildStep d q >>= (fun d' => rest.foldlM buildStep d') := rfl
          _ = rest.foldlM buildStep (buildStepPure d q) := by rw [hstep]; rfl
          _ = .error .bitStringOverflow :=
              ih _ hbad' (fun p hp => hrec p (by simp [hp]))

theorem buildOnChainData_overflow (m : List (String × Option String))
    (hrec : ∀ p ∈ m, (jettonOnChainMetadataSpec p.1).isSome)
    (hbad : ∃ p ∈ m, valFits p = false) :
    buildOnChainData m = .error .bitStringOverflow := by
  rw [buildOnChainData_eq_fold, foldlM_buildStep_overflow m [] hbad hrec]
  rfl

theorem buildStepPure_comm (x y : String × Option String) (z : Dict)
    (hx : (jettonOnChainMetadataSpec x.1).isSome)
    (hy : (jettonOnChainMetadataSpec y.1).isSome)
    (hne : x.1 ≠ y.1) :
    buildStepPure (buildStepPure z x) y = buildStepPure (buildStepPure z y) x := by
  obtain ⟨mx, hmx⟩ := Option.isSome_iff_exists.mp hx
  obtain ⟨my, hmy⟩ := Option.isSome_iff_exists.mp hy
  have hsha : sha256Nat x.1 ≠ sha256Nat y.1 := sha_inj_rec hx hy hne
  unfold buildStepPure
  rw [hmx, hmy]
  cases hx2 : x.2 with
  | none => cases hy2 : y.2 <;> rfl
  | some vx =>
      cases hy2 : y.2 with
      | none => rfl
      | some vy =>
          exact dictInsert_comm (sha256Nat y.1) (sha256Nat x.1) (metaValueCell my vy)
            (metaValueCell mx vx) z (Ne.symm hsha)

/-- C7.  `buildOnChainData` is a pure function of the key→value mapping:
for mappings with recognized, pairwise-distinct keys, any permutation of the
entry list (JS object insertion order) produces the same output — the
dictionary is keyed by fixed digests and serialised canonically.  (Identical
inputs trivially give identical outputs, the reflexive case.) -/
theorem build_insertion_order_independent (m₁ m₂ : List (String × Option String))
    (hperm : m₁.Perm m₂)
    (hrec : ∀ p ∈ m₁, (jettonOnChainMetadataSpec p.1).isSome)
    (hpair : m₁.Pairwise (fun a b => a.1 ≠ b.1)) :
    buildOnChainData m₁ = buildOnChainData m₂ := by
  have hrec₂ : ∀ p ∈ m₂, (jettonOnChainMetadataSpec p.1).isSome :=
    fun p hp => hrec p (hperm.symm.subset hp)
  by_cases hfit : ∀ p ∈ m₁, valFits p = true
  · have hfit₂ : ∀ p ∈ m₂, valFits p = true :=
      fun p hp => hfit p (hperm.symm.subset hp)
    rw [buildOnChainData_ok m₁ hrec hfit, buildOnChainData_ok m₂ hrec₂ hfit₂]
    have hcomm : ∀ x ∈ m₁, ∀ y ∈ m₁, ∀ z : Dict,
        buildStepPure (buildStepPure z x) y = buildStepPure (buildStepPure z y) x := by
      intro x hx y hy z
      by_cases hxy : x = y
      · subst hxy; rfl
      · have hne : x.1 ≠ y.1 :=
          List.Pairwise.forall (fun _ _ h => Ne.symm h) hpair hx hy hxy
        exact buildStepPure_comm x y z (hrec x hx) (hrec y hy) hne
    rw [hperm.foldl_eq' hcomm []]
  · have hbad : ∃ p ∈ m₁, valFits p = false := by
      push_neg at hfit
      obtain ⟨p, hp, hpf⟩ := hfit
      refine ⟨p, hp, ?_⟩
      cases hv : valFits p with
      | false => rfl
      | true => exact absurd hv hpf
    have hbad₂ : ∃ p ∈ m₂, valFits p = false := by
      obtain ⟨p, hp, hpf⟩ := hbad
      exact ⟨p, hperm.subset hp, hpf⟩
    rw [buildOnChainData_overflow m₁ hrec hbad, buildOnChainData_overflow m₂ hrec₂ hbad₂]

/-- C7 witness: two insertion orders of `{name: "a", symbol: "b"}`. -/
theorem build_insertion_order_independent_witness :
    buildOnChainData [("name", some "a"), ("symbol", some "b")]
      = buildOnChainData [("symbol", some "b"), ("name", some "a")] :=
  build_insertion_order_independent _ _ (List.Perm.swap _ _ _) (by decide) (by decide)

/-- The entry list `parseOnChainData` extracts from a content cell when its
structural reads succeed (the dictionary entries, each reduced to its snake
bytes). -/
def contentEntries (c : Cell) : Option (List (Nat × List Nat)) :=
  match readUintBits 8 c.bits with
  | some (t, rest) =>
      if t = onchainContentTag then
        match readDictCell rest c.refs with
        | .ok d => (extractEntries d).toOption
        | .error _ => none
      else none
  | none => none

theorem parse_ok_parseResult (c : Cell) (r : JettonMetadata)
    (h : parseOnChainData c = .ok r) :
    ∃ es, contentEntries c = some es ∧ r = parseResult es := by
  unfold parseOnChainData at h
  unfold contentEntries
  cases hru : readUintBits 8 c.bits with
  | none => rw [hru] at h; exact Except.noConfusion h
  | some p =>
      obtain ⟨t, rest⟩ := p
      rw [hru] at h
      have h2 : (if t = onchainContentTag
          then (readDictCell rest c.refs).bind (fun d => Except.map parseResult (extractEntries d))
          else Except.error JsError.expectedOnchainMarker) = Except.ok r := h
      show ∃ es, (if t = onchainContentTag
          then (match readDictCell rest c.refs with
                | .ok d => (extractEntries d).toOption
                | .error _ => none)
          else none) = some es ∧ r = parseResult es
      by_cases ht : t = onchainContentTag
      · rw [if_pos ht] at h2
        rw [if_pos ht]
        cases hdc : readDictCell rest c.refs with
        | error e => rw [hdc] at h2; exact Except.noConfusion h2
        | ok d =>
            rw [hdc] at h2
            rw [except_bind_ok] at h2
            show ∃ es, (extractEntries d).toOption = some es ∧ r = parseResult es
            cases hee : extractEntries d with
            | error e =>
                rw [hee] at h2
                exact Except.noConfusion h2
            | ok es =>
                rw [hee] at h2
                have h3 : Except.ok (parseResult es) = Except.ok r := h2
                exact ⟨es, rfl, (Except.ok.inj h3).symm⟩
      · rw [if_neg ht] at h2
        exact Except.noConfusion h2

theorem bitsToBytes_total : ∀ (n : Nat) (l : List Bool), l.length = 8 * n →
    ∃ bs, bitsToBytes l = some bs := by
  intro n
  induction n with
  | zero =>
      intro l h
      have hl : l = [] := List.eq_nil_of_length_eq_zero (by omega)
      subst hl
      exact ⟨[], rfl⟩
  | succ n ih =>
      intro l h
      rcases l with _ | ⟨b0, l⟩
      · simp at h
      rcases l with _ | ⟨b1, l⟩
      · simp at h; omega
      rcases l with _ | ⟨b2, l⟩
      · simp at h; omega
      rcases l with _ | ⟨b3, l⟩
      · simp at h; omega
      rcases l with _ | ⟨b4, l⟩
      · simp at h; omega
      rcases l with _ | ⟨b5, l⟩
      · simp at h; omega
      rcases l with _ | ⟨b6, l⟩
      · simp at h; omega
      rcases l with _ | ⟨b7, rest⟩
      · simp at h; omega
      have hrest : rest.length = 8 * n := by
        simp only [List.length_cons] at h
        omega
      obtain ⟨bs, hbs⟩ := ih rest hrest
      refine ⟨bitsToNat [b0, b1, b2, b3, b4, b5, b6, b7] :: bs, ?_⟩
      simp only [bitsToBytes]
      rw [hbs]
      rfl

theorem readDictCell_error (bits : List Bool) (refs : List Cell) (e : JsError)
    (h : readDictCell bits refs = .error e) : e = .cellUnderflow := by
  unfold readDictCell at h
  cases bits with
  | nil => exact (Except.error.inj h).symm
  | cons b rest =>
      cases b with
      | false => exact Except.noConfusion h
      | true =>
          cases refs with
          | nil => exact (Except.error.inj h).symm
          | cons r rs =>
              have h2 : (match cellToDict r with
                | none => (Except.error JsError.cellUnderflow : Except JsError Dict)
                | some d => Except.ok d) = Except.error e := h
              cases hcd : cellToDict r with
              | none => rw [hcd] at h2; exact (Except.error.inj h2).symm
              | some d => rw [hcd] at h2; exact Except.noConfusion h2

/-- The dictionary a content cell carries, when the leading tag matches and
the structural reads succeed. -/
def dictOfContent (c : Cell) : Option Dict :=
  match readUintBits 8 c.bits with
  | some (t, rest) =>
      if t = onchainContentTag then
        match readDictCell rest c.refs with
        | .ok d => some d
        | .error _ => none
      else none
  | none => none

/-- Decidable side condition for the tag-error characterization: every
dictionary entry is large enough to hold its tag byte and is byte-aligned
(so that the only way an entry can fail is its tag). -/
def entriesWellSized (c : Cell) : Bool :=
  match dictOfContent c with
  | none => true
  | some d => d.all (fun e =>
      decide (8 ≤ e.2.bits.length) && decide ((e.2.bits.length - 8) % 8 = 0))

/-- The content cell's leading 8-bit tag is readable and differs from the
on-chain content marker. -/
def leadTagMismatch (c : Cell) : Prop :=
  ∃ t rest, readUintBits 8 c.bits = some (t, rest) ∧ t ≠ onchainContentTag

/-- Some dictionary entry's first byte differs from the snake-format tag. -/
def entryTagMismatch (c : Cell) : Prop :=
  ∃ d, dictOfContent c = some d ∧ ∃ e ∈ d, ∃ t rest,
    readUintBits 8 e.2.bits = some (t, rest) ∧ t ≠ snakeFormatTag

theorem extractSnake_sized (v : Cell) (h8 : 8 ≤ v.bits.length)
    (hal : (v.bits.length - 8) % 8 = 0) :
    (∃ bs, extractSnake v = .ok bs) ∨ extractSnake v = .error .onlySnakeFormat := by
  unfold extractSnake
  have hru : readUintBits 8 v.bits = some (bitsToNat (v.bits.take 8), v.bits.drop 8) := by
    unfold readUintBits
    rw [if_pos h8]
  simp only [hru]
  by_cases ht : bitsToNat (v.bits.take 8) = snakeFormatTag
  · rw [if_pos ht]
    left
    have hlen : (v.bits.drop 8).length = 8 * ((v.bits.length - 8) / 8) := by
      rw [List.length_drop]
      omega
    obtain ⟨bs, hbs⟩ := bitsToBytes_total ((v.bits.length - 8) / 8) _ hlen
    rw [hbs]
    exact ⟨bs, rfl⟩
  · rw [if_neg ht]
    right
    rfl

theorem extractSnake_snakeError_iff (v : Cell) (h8 : 8 ≤ v.bits.length) :
    extractSnake v = .error .onlySnakeFormat
      ↔ ∃ t rest, readUintBits 8 v.bits = some (t, rest) ∧ t ≠ snakeFormatTag := by
  unfold extractSnake
  have hru : readUintBits 8 v.bits = some (bitsToNat (v.bits.take 8), v.bits.drop 8) := by
    unfold readUintBits
    rw [if_pos h8]
  simp only [hru]
  by_cases ht : bitsToNat (v.bits.take 8) = snakeFormatTag
  · rw [if_pos ht]
    apply iff_of_false
    · cases hbb : bitsToBytes (v.bits.drop 8) with
      | none => intro hcon; exact JsError.noConfusion (Except.error.inj hcon)
      | some bs => intro hcon; exact Except.noConfusion hcon
    · rintro ⟨t, rest, hsome, hta⟩
      apply hta
      injection Option.some.inj hsome with h1 h2
      rw [← h1]
      exact ht
  · rw [if_neg ht]
    apply iff_of_true
    · rfl
    · exact ⟨bitsToNat (v.bits.take 8), v.bits.drop 8, rfl, ht⟩

theorem extractEntries_error_iff (d : Dict)
    (hdi : ∀ e ∈ d, (∃ bs, extractSnake e.2 = .ok bs)
      ∨ extractSnake e.2 = .error .onlySnakeFormat) :
    ((∃ es, extractEntries d = .ok es) ∨ extractEntries d = .error .onlySnakeFormat)
    ∧ (extractEntries d = .error .onlySnakeFormat
        ↔ ∃ e ∈ d, extractSnake e.2 = .error .onlySnakeFormat) := by
  induction d with
  | nil =>
      refine ⟨Or.inl ⟨[], rfl⟩, ?_⟩
      apply iff_of_false
      · intro hcon; exact Except.noConfusion hcon
      · rintro ⟨e, he, _⟩; exact List.not_mem_nil e he
  | cons e rest ih =>
      obtain ⟨hres, hiff⟩ := ih (fun x hx => hdi x (by simp [hx]))
      rcases hdi e (by simp) with ⟨bs, hbs⟩ | hbad
      · have hunf : extractEntries (e :: rest)
            = match extractEntries rest with
              | .error err => .error err
              | .ok tail => .ok ((e.1, bs) :: tail) := by
          show (match extractSnake e.2 with
            | Except.error err => Except.error err
            | Except.ok bs' =>
                match extractEntries rest with
                | Except.error err => Except.error err
                | Except.ok tail => Except.ok ((e.1, bs') :: tail)) = _
          rw [hbs]
        rcases hres with ⟨es, hes⟩ | hes
        · constructor
          · left
            exact ⟨(e.1, bs) :: es, by rw [hunf, hes]⟩
          · apply iff_of_false
            · intro hcon
              rw [hunf, hes] at hcon
              exact Except.noConfusion hcon
            · rintro ⟨e', he', hbad'⟩
              rcases List.mem_cons.mp he' with heq | he''
              · subst heq
                rw [hbs] at hbad'
                exact Except.noConfusion hbad'
              · have := hiff.mpr ⟨e', he'', hbad'⟩
                rw [hes] at this
                exact Except.noConfusion this
        · constructor
          · right
            rw [hunf, hes]
          · apply iff_of_true
            · rw [hunf, hes]
            · obtain ⟨e', he', hbad'⟩ := hiff.mp hes
              exact ⟨e', by simp [he'], hbad'⟩
      · have hunf : extractEntries (e :: rest) = .error .onlySnakeFormat := by
          show (match extractSnake e.2 with
            | Except.error err => Except.error err
            | Except.ok bs' =>
                match extractEntries rest with
                | Except.error err => Except.error err
                | Except.ok tail => Except.ok ((e.1, bs') :: tail)) = _
          rw [hbad]
        refine ⟨Or.inr hunf, iff_of_true hunf ⟨e, by simp, hbad⟩⟩

theorem parse_eq_underflow (c : Cell) (hru : readUintBits 8 c.bits = none) :
    parseOnChainData c = .error .cellUnderflow := by
  unfold parseOnChainData
  rw [hru]

theorem parse_eq_marker (c : Cell) (t : Nat) (rest : List Bool)
    (hru : readUintBits 8 c.bits = some (t, rest)) (ht : t ≠ onchainContentTag) :
    parseOnChainData c = .error .expectedOnchainMarker := by
  unfold parseOnChainData
  simp only [hru]
  rw [if_neg ht]

theorem parse_eq_of_reads (c : Cell) (t : Nat) (rest : List Bool)
    (hru : readUintBits 8 c.bits = some (t, rest)) (ht : t = onchainContentTag) :
    parseOnChainData c
      = (readDictCell rest c.refs).bind (fun d => Except.map parseResult (extractEntries d)) := by
  unfold parseOnChainData
  simp only [hru]
  rw [if_pos ht]

theorem dictOfContent_underflow (c : Cell) (hru : readUintBits 8 c.bits = none) :
    dictOfContent c = none := by
  unfold dictOfContent
  rw [hru]

theorem dictOfContent_eq (c : Cell) (t : Nat) (rest : List Bool)
    (hru : readUintBits 8 c.bits = some (t, rest)) (ht : t = onchainContentTag) :
    dictOfContent c = (match readDictCell rest c.refs with
      | .ok d => some d
      | .error _ => none) := by
  unfold dictOfContent
  simp only [hru]
  rw [if_pos ht]

theorem dictOfContent_marker (c : Cell) (t : Nat) (rest : List Bool)
    (hru : readUintBits 8 c.bits = some (t, rest)) (ht : t ≠ onchainContentTag) :
    dictOfContent c = none := by
  unfold dictOfContent
  simp only [hru]
  rw [if_neg ht]

/-- C3.  With every dictionary entry large enough for its tag byte and
byte-aligned (`entriesWellSized`, so that decoding cannot fail for a
size reason instead), `parseOnChainData` fails with one of the two
`MalformedContentError`s — "Expected onchain content marker" or "Only snake
format is supported" — exactly when a prefix tag mismatches: the leading
8-bit tag differs from the on-chain marker, or some dictionary entry's
first byte differs from the snake tag.  Otherwise no tag-related error is
raised. -/
theorem parse_tag_errors (c : Cell) (hwf : entriesWellSized c = true) :
    (parseOnChainData c = .error .expectedOnchainMarker
      ∨ parseOnChainData c = .error .onlySnakeFormat)
    ↔ (leadTagMismatch c ∨ entryTagMismatch c) := by
  cases hru : readUintBits 8 c.bits with
  | none =>
      have hp := parse_eq_underflow c hru
      have hdoc := dictOfContent_underflow c hru
      apply iff_of_false
      · rintro (hcon | hcon) <;> rw [hp] at hcon <;>
          exact JsError.noConfusion (Except.error.inj hcon)
      · rintro (⟨t, rest, hsome, _⟩ | ⟨d, hd, _⟩)
        · rw [hru] at hsome
          exact Option.noConfusion hsome
        · rw [hdoc] at hd
          exact Option.noConfusion hd
  | some p =>
      obtain ⟨t, rest⟩ := p
      by_cases ht : t = onchainContentTag
      · cases hdc : readDictCell rest c.refs with
        | error e =>
            have he := readDictCell_error rest c.refs e hdc
            subst he
            have hp0 := parse_eq_of_reads c t rest hru ht
            rw [hdc] at hp0
            have hp : parseOnChainData c = .error .cellUnderflow := hp0
            have hdoc : dictOfContent c = none := by
              rw [dictOfContent_eq c t rest hru ht, hdc]
            apply iff_of_false
            · rintro (hcon | hcon) <;> rw [hp] at hcon <;>
                exact JsError.noConfusion (Except.error.inj hcon)
            · rintro (⟨t', rest', hsome, hta⟩ | ⟨d, hd, _⟩)
              · rw [hru] at hsome
                injection Option.some.inj hsome with h1 h2
                exact hta (h1 ▸ ht)
              · rw [hdoc] at hd
                exact Option.noConfusion hd
        | ok d =>
            have hp0 := parse_eq_of_reads c t rest hru ht
            rw [hdc] at hp0
            have hp : parseOnChainData c = Except.map parseResult (extractEntries d) := hp0
            have hdoc : dictOfContent c = some d := by
              rw [dictOfContent_eq c t rest hru ht, hdc]
            have hwf2 : ∀ e ∈ d, 8 ≤ e.2.bits.length ∧ (e.2.bits.length - 8) % 8 = 0 := by
              unfold entriesWellSized at hwf
              rw [hdoc] at hwf
              intro e he
              have hb := List.all_eq_true.mp hwf e he
              simp only [Bool.and_eq_true, decide_eq_true_eq] at hb
              exact hb
            have hdi : ∀ e ∈ d, (∃ bs, extractSnake e.2 = .ok bs)
                ∨ extractSnake e.2 = .error .onlySnakeFormat :=
              fun e he => extractSnake_sized e.2 (hwf2 e he).1 (hwf2 e he).2
            obtain ⟨hres, hiff⟩ := extractEntries_error_iff d hdi
            by_cases hbad : ∃ e ∈ d, extractSnake e.2 = .error .onlySnakeFormat
            · have hee : extractEntries d = .error .onlySnakeFormat := hiff.mpr hbad
              rw [hee] at hp
              have hp2 : parseOnChainData c = .error .onlySnakeFormat := hp
              apply iff_of_true
              · exact Or.inr hp2
              · right
                obtain ⟨e, he, hesnake⟩ := hbad
                exact ⟨d, hdoc, e, he,
                  (extractSnake_snakeError_iff e.2 (hwf2 e he).1).mp hesnake⟩
            · rcases hres with ⟨es, hes⟩ | hes
              · rw [hes] at hp
                have hp2 : parseOnChainData c = .ok (parseResult es) := hp
                apply iff_of_false
                · rintro (hcon | hcon) <;> rw [hp2] at hcon <;> exact Except.noConfusion hcon
                · rintro (⟨t', rest', hsome, hta⟩ | ⟨d', hd', e, he, het⟩)
                  · rw [hru] at hsome
                    injection Option.some.inj hsome with h1 h2
                    exact hta (h1 ▸ ht)
                  · rw [hdoc] at hd'
                    have hdd : d' = d := (Option.some.inj hd').symm
                    subst hdd
                    obtain ⟨t', rest', hre, hta⟩ := het
                    exact hbad ⟨e, he,
                      (extractSnake_snakeError_iff e.2 (hwf2 e he).1).mpr ⟨t', rest', hre, hta⟩⟩
              · exact absurd (hiff.mp hes) hbad
      · have hp := parse_eq_marker c t rest hru ht
        have hdoc := dictOfContent_marker c t rest hru ht
        apply iff_of_true
        · exact Or.inl hp
        · exact Or.inl ⟨t, rest, hru, ht⟩

/-- C3 witness: a content cell whose leading byte is 5 (not the on-chain
marker), with no references — well-sized (its dictionary is never reached),
and the characterization instantiates to an actual marker error. -/
theorem parse_tag_errors_witness :
    entriesWellSized (Cell.mk (uintBits 5 8) []) = true ∧
    ((parseOnChainData (Cell.mk (uintBits 5 8) []) = .error .expectedOnchainMarker
        ∨ parseOnChainData (Cell.mk (uintBits 5 8) []) = .error .onlySnakeFormat)
      ↔ (leadTagMismatch (Cell.mk (uintBits 5 8) [])
        ∨ entryTagMismatch (Cell.mk (uintBits 5 8) []))) :=
  ⟨by decide, parse_tag_errors (Cell.mk (uintBits 5 8) []) (by decide)⟩

/-- C4 (amended).  For `jettonAmount < 2^120` — so that the amount's byte
length fits `writeCoins`' 4-bit size field — `mintBody(owner, jettonAmount)`
produces exactly this layout: the 32-bit Mint opcode (21), a 64-bit zero
query id, the owner address (`addr_std`: tag bits `10`, no-anycast bit,
8-bit workchain, 256-bit hash), the fixed gas-fee coin amount `toNano(0.2)`
= 200000000, and one reference to the nested InternalTransfer cell: its
32-bit opcode, zero query id, coin amount = jettonAmount, two empty
optional addresses (`addr_none$00` twice), a zero forward-amount, and a
single `false` bit for the inline forward payload.  Deterministic: the
output is a function of the inputs.  For amounts ≥ 2^120 the builder throws
instead (see the counterexample). -/
theorem mintBody_layout (owner : Address) (jettonValue : Nat)
    (h : jettonValue < 2 ^ 120) :
    mintBody owner jettonValue = .ok (Cell.mk
      (uintBits OPS.Mint 32 ++ uintBits 0 64
        ++ ([true, false, false] ++ uintBits (owner.workChain.emod 256).toNat 8
            ++ uintBits owner.hash 256)
        ++ coinsBits 200000000)
      [Cell.mk
        (uintBits OPS.InternalTransfer 32 ++ uintBits 0 64 ++ coinsBits jettonValue
          ++ [false, false] ++ [false, false] ++ coinsBits 0 ++ [false])
        []]) := by
  have hbl : byteLen jettonValue ≤ 15 := byteLen_le jettonValue 15 (by norm_num; exact h)
  have hb2 : byteLen 200000000 = 4 := by decide
  have hb0 : byteLen 0 = 0 := rfl
  have s1 : beginCell.storeUint OPS.Mint 32 = .ok ⟨uintBits OPS.Mint 32, []⟩ := by
    rw [storeUint_ok beginCell OPS.Mint 32 (by decide) (by decide)]
    rfl
  have s2 : Builder.storeUint ⟨uintBits OPS.Mint 32, []⟩ 0 64
      = .ok ⟨uintBits OPS.Mint 32 ++ uintBits 0 64, []⟩ := by
    apply storeUint_ok _ 0 64 (by norm_num)
    show (uintBits OPS.Mint 32).length + 64 ≤ 1023
    rw [length_uintBits]
    norm_num
  have s3 : Builder.storeAddress ⟨uintBits OPS.Mint 32 ++ uintBits 0 64, []⟩ (some owner)
      = .ok ⟨(uintBits OPS.Mint 32 ++ uintBits 0 64) ++ addrBits (some owner), []⟩ := by
    apply storeAddress_ok
    show (uintBits OPS.Mint 32 ++ uintBits 0 64).length + 267 ≤ 1023
    simp only [List.length_append, length_uintBits]
    norm_num
  have s4 : Builder.storeCoins ⟨(uintBits OPS.Mint 32 ++ uintBits 0 64)
        ++ addrBits (some owner), []⟩ 200000000
      = .ok ⟨((uintBits OPS.Mint 32 ++ uintBits 0 64) ++ addrBits (some owner))
          ++ coinsBits 200000000, []⟩ := by
    apply storeCoins_ok _ 200000000 (by decide)
    show ((uintBits OPS.Mint 32 ++ uintBits 0 64) ++ addrBits (some owner)).length
        + (4 + 8 * byteLen 200000000) ≤ 1023
    simp only [List.length_append, length_uintBits, length_addrBits_some, hb2]
    norm_num
  have i1 : beginCell.storeUint OPS.InternalTransfer 32
      = .ok ⟨uintBits OPS.InternalTransfer 32, []⟩ := by
    rw [storeUint_ok beginCell OPS.InternalTransfer 32 (by decide) (by decide)]
    rfl
  have i2 : Builder.storeUint ⟨uintBits OPS.InternalTransfer 32, []⟩ 0 64
      = .ok ⟨uintBits OPS.InternalTransfer 32 ++ uintBits 0 64, []⟩ := by
    apply storeUint_ok _ 0 64 (by norm_num)
    show (uintBits OPS.InternalTransfer 32).length + 64 ≤ 1023
    rw [length_uintBits]
    norm_num
  have i3 : Builder.storeCoins ⟨uintBits OPS.InternalTransfer 32 ++ uintBits 0 64, []⟩
        jettonValue
      = .ok ⟨(uintBits OPS.InternalTransfer 32 ++ uintBits 0 64)
          ++ coinsBits jettonValue, []⟩ := by
    apply storeCoins_ok _ jettonValue (by omega)
    show (uintBits OPS.InternalTransfer 32 ++ uintBits 0 64).length
        + (4 + 8 * byteLen jettonValue) ≤ 1023
    simp only [List.length_append, length_uintBits]
    omega
  have i4 : Builder.storeAddress ⟨(uintBits OPS.InternalTransfer 32 ++ uintBits 0 64)
        ++ coinsBits jettonValue, []⟩ (none : Option Address)
      = .ok ⟨((uintBits OPS.InternalTransfer 32 ++ uintBits 0 64)
          ++ coinsBits jettonValue) ++ [false, false], []⟩ := by
    apply storeAddressNone_ok
    show ((uintBits OPS.InternalTransfer 32 ++ uintBits 0 64)
        ++ coinsBits jettonValue).length + 2 ≤ 1023
    simp only [List.length_append, length_uintBits, length_coinsBits]
    omega
  have i5 : Builder.storeAddress ⟨((uintBits OPS.InternalTransfer 32 ++ uintBits 0 64)
        ++ coinsBits jettonValue) ++ [false, false], []⟩ (none : Option Address)
      = .ok ⟨(((uintBits OPS.InternalTransfer 32 ++ uintBits 0 64)
          ++ coinsBits jettonValue) ++ [false, false]) ++ [false, false], []⟩ := by
    apply storeAddressNone_ok
    show (((uintBits OPS.InternalTransfer 32 ++ uintBits 0 64)
        ++ coinsBits jettonValue) ++ [false, false]).length + 2 ≤ 1023
    simp only [List.length_append, length_uintBits, length_coinsBits, List.length_cons,
      List.length_nil]
    omega
  have i6 : Builder.storeCoins ⟨(((uintBits OPS.InternalTransfer 32 ++ uintBits 0 64)
        ++ coinsBits jettonValue) ++ [false, false]) ++ [false, false], []⟩ 0
      = .ok ⟨((((uintBits OPS.InternalTransfer 32 ++ uintBits 0 64)
          ++ coinsBits jettonValue) ++ [false, false]) ++ [false, false])
          ++ coinsBits 0, []⟩ := by
    apply storeCoins_ok _ 0 (by decide)
    show ((((uintBits OPS.InternalTransfer 32 ++ uintBits 0 64)
        ++ coinsBits jettonValue) ++ [false, false]) ++ [false, false]).length
        + (4 + 8 * byteLen 0) ≤ 1023
    simp only [List.length_append, length_uintBits, length_coinsBits, List.length_cons,
      List.length_nil, hb0]
    omega
  have i7 : Builder.storeBit ⟨((((uintBits OPS.InternalTransfer 32 ++ uintBits 0 64)
        ++ coinsBits jettonValue) ++ [false, false]) ++ [false, false])
        ++ coinsBits 0, []⟩ false
      = .ok ⟨(((((uintBits OPS.InternalTransfer 32 ++ uintBits 0 64)
          ++ coinsBits jettonValue) ++ [false, false]) ++ [false, false])
          ++ coinsBits 0) ++ [false], []⟩ := by
    apply storeBit_ok
    show (((((uintBits OPS.InternalTransfer 32 ++ uintBits 0 64)
        ++ coinsBits jettonValue) ++ [false, false]) ++ [false, false])
        ++ coinsBits 0).length + 1 ≤ 1023
    simp only [List.length_append, length_uintBits, length_coinsBits, List.length_cons,
      List.length_nil, hb0]
    omega
  have sr : Builder.storeRef ⟨((uintBits OPS.Mint 32 ++ uintBits 0 64)
        ++ addrBits (some owner)) ++ coinsBits 200000000, []⟩
      (Builder.endCell ⟨(((((uintBits OPS.InternalTransfer 32 ++ uintBits 0 64)
        ++ coinsBits jettonValue) ++ [false, false]) ++ [false, false])
        ++ coinsBits 0) ++ [false], []⟩)
      = .ok ⟨((uintBits OPS.Mint 32 ++ uintBits 0 64) ++ addrBits (some owner))
          ++ coinsBits 200000000,
        [Builder.endCell ⟨(((((uintBits OPS.InternalTransfer 32 ++ uintBits 0 64)
          ++ coinsBits jettonValue) ++ [false, false]) ++ [false, false])
          ++ coinsBits 0) ++ [false], []⟩]⟩ := by
    apply storeRef_ok
    show ([] : List Cell).length < 4
    decide
  simp only [mintBody, s1, except_pure_bind, s2, s3, s4, i1, i2, i3, i4, i5, i6, i7, sr]
  simp [Builder.endCell, addrBits, except_pure, List.append_assoc]

/-- C4 witness: `mintBody` at owner (workchain 0, hash 7) and amount 1000
produces the layout (the amount is far below the 2^120 bound). -/
theorem mintBody_layout_witness :
    mintBody ⟨0, 7⟩ 1000 = .ok (Cell.mk
      (uintBits OPS.Mint 32 ++ uintBits 0 64
        ++ ([true, false, false] ++ uintBits ((0 : Int).emod 256).toNat 8
            ++ uintBits 7 256)
        ++ coinsBits 200000000)
      [Cell.mk
        (uintBits OPS.InternalTransfer 32 ++ uintBits 0 64 ++ coinsBits 1000
          ++ [false, false] ++ [false, false] ++ coinsBits 0 ++ [false])
        []]) :=
  mintBody_layout ⟨0, 7⟩ 1000 (by norm_num)

/-- C4 counterexample to the claim as stated: at `jettonAmount = 2^120` the
amount takes 16 bytes, the byte length does not fit `writeCoins`' 4-bit
size field, and `mintBody` throws (`writeUint`'s "bitLength is too small"
error) instead of producing any cell. -/
theorem mintBody_layout_cex :
    mintBody ⟨0, 0⟩ (2 ^ 120) = .error .numberOverflow := rfl

/-- `initData`'s successful assembly, shared by the initialization-layout
and deployment claims. -/
theorem initData_ok (owner : Address) (data : List (String × Option String))
    (content : Cell) (h : buildOnChainData data = .ok content) :
    initData owner data = .ok (Cell.mk
      (coinsBits 0 ++ ([true, false, false] ++ uintBits (owner.workChain.emod 256).toNat 8
        ++ uintBits owner.hash 256))
      [content, JETTON_WALLET_CODE]) := by
  have t1 : beginCell.storeCoins 0 = .ok ⟨coinsBits 0, []⟩ := by
    rw [storeCoins_ok beginCell 0 (by decide) (by decide)]
    rfl
  have t2 : Builder.storeAddress ⟨coinsBits 0, []⟩ (some owner)
      = .ok ⟨coinsBits 0 ++ addrBits (some owner), []⟩ := by
    apply storeAddress_ok
    show (coinsBits 0).length + 267 ≤ 1023
    rw [length_coinsBits]
    norm_num [show byteLen 0 = 0 from rfl]
  have t3 : Builder.storeRef ⟨coinsBits 0 ++ addrBits (some owner), []⟩ content
      = .ok ⟨coinsBits 0 ++ addrBits (some owner), [content]⟩ := by
    apply storeRef_ok
    show ([] : List Cell).length < 4
    decide
  have t4 : Builder.storeRef ⟨coinsBits 0 ++ addrBits (some owner), [content]⟩
        JETTON_WALLET_CODE
      = .ok ⟨coinsBits 0 ++ addrBits (some owner), [content, JETTON_WALLET_CODE]⟩ := by
    apply storeRef_ok
    show ([content] : List Cell).length < 4
    simp
  simp only [initData, t1, except_pure_bind, t2, h, t3, t4]
  simp [Builder.endCell, addrBits, except_pure, List.append_assoc]

/-- C5.  `initData(owner, metadata)` assembles, in order: a zero coin
balance, the owner address, a reference to the content cell produced by
`buildOnChainData` on the metadata, and a reference to the fixed
jetton-wallet code template cell. -/
theorem initData_layout (owner : Address) (data : List (String × Option String))
    (content : Cell) (h : buildOnChainData data = .ok content) :
    initData owner data = .ok (Cell.mk
      (coinsBits 0 ++ ([true, false, false] ++ uintBits (owner.workChain.emod 256).toNat 8
        ++ uintBits owner.hash 256))
      [content, JETTON_WALLET_CODE]) :=
  initData_ok owner data content h

/-- C5 witness: `initData` at owner (workchain 0, hash 7) and the empty
metadata mapping, whose content cell is the empty-dictionary root. -/
theorem initData_layout_witness :
    initData ⟨0, 7⟩ [] = .ok (Cell.mk
      (coinsBits 0 ++ ([true, false, false] ++ uintBits ((0 : Int).emod 256).toNat 8
        ++ uintBits 7 256))
      [contentRoot [], JETTON_WALLET_CODE]) :=
  initData_layout ⟨0, 7⟩ [] (contentRoot []) rfl

/-- C6.  The deployment path validates the owner address string before
assembling anything: if `Address.parse` rejects it, `deployInitData` fails
with the invalid-address error (`InvalidAddressError`); if it parses, and
the metadata encodes, assembly succeeds with the `initData` layout. -/
theorem deploy_address_validation (s : String) (data : List (String × Option String)) :
    (parseAddress s = none → deployInitData s data = .error .invalidAddress) ∧
    (∀ a, parseAddress s = some a → ∀ c, buildOnChainData data = .ok c →
      deployInitData s data = .ok (Cell.mk
        (coinsBits 0 ++ ([true, false, false] ++ uintBits (a.workChain.emod 256).toNat 8
          ++ uintBits a.hash 256))
        [c, JETTON_WALLET_CODE])) := by
  constructor
  · intro h
    unfold deployInitData
    rw [h]
  · intro a ha c hc
    unfold deployInitData
    rw [ha]
    exact initData_ok a data c hc

def c6Hash : Nat :=
  16296859330682058598636634372405692141310454580437972525083308689657820004456

/-- C6 witness: the 3-character string "xyz" is rejected with the
invalid-address error; the valid 48-character friendly address from the
source's own comment parses (workchain 0) and assembly succeeds. -/
theorem deploy_address_validation_witness :
    deployInitData "xyz" [] = .error .invalidAddress ∧
    deployInitData "EQAkB7IMqZvzE070sYNKD0dWG4pN_WpfaDOr13Uw377AaA24" []
      = .ok (Cell.mk
        (coinsBits 0 ++ ([true, false, false] ++ uintBits ((0 : Int).emod 256).toNat 8
          ++ uintBits c6Hash 256))
        [contentRoot [], JETTON_WALLET_CODE]) :=
  ⟨(deploy_address_validation "xyz" []).1 rfl,
   (deploy_address_validation "EQAkB7IMqZvzE070sYNKD0dWG4pN_WpfaDOr13Uw377AaA24" []).2
     ⟨0, c6Hash⟩ rfl (contentRoot []) rfl⟩

/-- C9.  A dictionary entry that decodes to the empty string is omitted from
the parse result: the `if (val)` truthiness check drops it, exactly like an
absent key.  (The witness instantiates this at the encoding of
`{name: ""}`.) -/
theorem parse_drops_empty (c : Cell) (r : JettonMetadata) (es : List (Nat × List Nat))
    (k : String) (mode : EncMode) (bs : List Nat)
    (hp : parseOnChainData c = .ok r) (hes : contentEntries c = some es)
    (hk : jettonOnChainMetadataSpec k = some mode)
    (hlook : entriesLookup (sha256Nat k) es = some bs)
    (hdec : decodeBytes mode bs = "") :
    metaGet r k = none := by
  obtain ⟨es', hes', hr⟩ := parse_ok_parseResult c r hp
  rw [hes] at hes'
  have hesq : es = es' := Option.some.inj hes'
  subst hesq
  subst hr
  have hk' : (jettonOnChainMetadataSpec k).isSome := by rw [hk]; rfl
  rcases (spec_isSome_iff k).mp hk' with rfl | rfl | rfl | rfl
  · have h0 : (some EncMode.utf8 : Option EncMode) = some mode := hk
    have hmode : mode = .utf8 := (Option.some.inj h0).symm
    subst hmode
    show parseEntryVal es "name" .utf8 = none
    unfold parseEntryVal
    simp only [hlook]
    rw [if_pos hdec]
  · have h0 : (some EncMode.utf8 : Option EncMode) = some mode := hk
    have hmode : mode = .utf8 := (Option.some.inj h0).symm
    subst hmode
    show parseEntryVal es "description" .utf8 = none
    unfold parseEntryVal
    simp only [hlook]
    rw [if_pos hdec]
  · have h0 : (some EncMode.ascii : Option EncMode) = some mode := hk
    have hmode : mode = .ascii := (Option.some.inj h0).symm
    subst hmode
    show parseEntryVal es "image" .ascii = none
    unfold parseEntryVal
    simp only [hlook]
    rw [if_pos hdec]
  · have h0 : (some EncMode.utf8 : Option EncMode) = some mode := hk
    have hmode : mode = .utf8 := (Option.some.inj h0).symm
    subst hmode
    show parseEntryVal es "symbol" .utf8 = none
    unfold parseEntryVal
    simp only [hlook]
    rw [if_pos hdec]

/-- C9 witness: `{name: ""}` encodes to a content cell whose `name` entry
holds zero value bytes; that entry decodes to the empty string and the
parse result omits `name`. -/
theorem parse_drops_empty_witness :
    buildOnChainData [("name", some "")]
        = .ok (contentRoot [(sha256Nat "name", metaValueCell .utf8 "")]) ∧
    metaGet (parseResult [(sha256Nat "name", [])]) "name" = none :=
  ⟨rfl,
   parse_drops_empty (contentRoot [(sha256Nat "name", metaValueCell .utf8 "")])
     (parseResult [(sha256Nat "name", [])]) [(sha256Nat "name", [])] "name" .utf8 []
     rfl rfl rfl rfl rfl⟩

/-- C10.  Writing through `connectWalletSelector` updates only the `address`
and `wallet` fields: for every prior state and every new value, the
`adapterId`, `isConnecting`, and `isRestoring` fields are unchanged (and
`address`/`wallet` take the written values). -/
theorem connectWalletSelector_frame {W A : Type} (s : ConnectionStateAtom W A)
    (nv : ConnectNewValue W) :
    (connectWalletSelectorSet s nv).adapterId = s.adapterId ∧
    (connectWalletSelectorSet s nv).isConnecting = s.isConnecting ∧
    (connectWalletSelectorSet s nv).isRestoring = s.isRestoring ∧
    (connectWalletSelectorSet s nv).address = nv.address ∧
    (connectWalletSelectorSet s nv).wallet = nv.wallet :=
  ⟨rfl, rfl, rfl, rfl, rfl⟩

def c3CexDict : Dict := [(1, Cell.mk [] []), (2, Cell.mk (uintBits 1 8) [])]

def c3CexCell : Cell := Cell.mk (uintBits 0 8 ++ [true]) [dictToCell c3CexDict]

/-- C3 counterexample to the claim as stated, over arbitrary content cells:
in this cell the first dictionary entry has no room for a tag byte (a size
error) while the second entry's first byte is 1 (a genuine snake-tag
mismatch).  Decoding stops at the first entry with the library's
cell-underflow error, not a `MalformedContentError`, even though a
dictionary entry's tag does mismatch — so "fails with MalformedContentError
exactly when a prefix tag mismatches" fails without the well-sizedness
proviso. -/
theorem parse_tag_errors_cex :
    ¬ ((parseOnChainData c3CexCell = .error .expectedOnchainMarker
        ∨ parseOnChainData c3CexCell = .error .onlySnakeFormat)
      ↔ (leadTagMismatch c3CexCell ∨ entryTagMismatch c3CexCell)) := by
  intro h
  have hmem : (2, Cell.mk (uintBits 1 8) []) ∈ c3CexDict :=
    List.mem_cons_of_mem _ (List.mem_cons_self _ _)
  have hrhs : entryTagMismatch c3CexCell :=
    ⟨c3CexDict, rfl, (2, Cell.mk (uintBits 1 8) []), hmem, 1, [], rfl, by decide⟩
  have hp : parseOnChainData c3CexCell = .error .cellUnderflow := rfl
  rcases h.mpr (Or.inr hrhs) with hcon | hcon <;> rw [hp] at hcon <;>
    exact JsError.noConfusion (Except.error.inj hcon)

